import Mathlib

/-!
Verification development for the `ai-team` tool-call orchestration system.

We give a shallow embedding, in Lean, of the system's core pipeline:
the argument normalizer (`toSnakeCaseLocal`, `normalizeToolCall`), the tool
registry and its validator (`ValidateToolCall`), the tool executor
(`ToolExecutor.Execute`), the multi-strategy tool-call extractor
(`ExtractToolCall` with its `json_code_block` and `inline_json` handlers),
the loop-condition evaluator (`evaluateLoopCondition`) and the chain
orchestrator (`ExecuteChain`), together with the interactive session
controller's tool-call loop (`handleToolCall`).

Go strings are modelled as `List Char` (with `String` wrappers at the
boundary); Go's dynamically-typed `interface\x7b\x7d` values are modelled by the
`GoValue` inductive, where a number decoded from JSON is a `.float` (Go's
`encoding/json` decodes every number into `float64`) while a number stored
by Go code directly may be an `.int`.  Go maps are modelled as association
lists with insert-replace semantics; where Go iterates a map in randomized
order, the model iterates in list order (noted at each such place).
External collaborators (HTTP model calls, the file system, the terminal UI)
are modelled as explicit oracle parameters; everything else is translated
from the source.
-/

namespace AiTeam

/-! ## Go `strings` helpers, on `List Char` (ASCII fragment).

`unicode`-aware behaviour of Go's `strings.ToLower` / `unicode.IsSpace` is
modelled on the ASCII range only; every concrete input in this development
is ASCII. -/

/-- Character constants (kept out of literals for clarity). -/
def lbraceC : Char := Char.ofNat 123

def rbraceC : Char := Char.ofNat 125

def dquoteC : Char := Char.ofNat 34

def squoteC : Char := Char.ofNat 39

def backtickC : Char := Char.ofNat 96

/-- ASCII lower-casing of one character, as Go's `strings.ToLower` acts on
the ASCII range. -/
def goToLowerChar (c : Char) : Char :=
  if 'A' ≤ c ∧ c ≤ 'Z' then Char.ofNat (c.toNat + 32) else c

def goToLower (s : List Char) : List Char := s.map goToLowerChar

/-- Go's `unicode.IsSpace` restricted to ASCII whitespace. -/
def goIsSpace (c : Char) : Bool :=
  c = ' ' || c = '\t' || c = '\n' || c = '\r' ||
    c = Char.ofNat 11 || c = Char.ofNat 12

def dropWhileList (p : Char → Bool) (s : List Char) : List Char :=
  s.dropWhile p

/-- `strings.TrimSpace`. -/
def goTrimSpace (s : List Char) : List Char :=
  ((s.dropWhile goIsSpace).reverse.dropWhile goIsSpace).reverse

/-- `strings.Trim s cutset`: drop characters of `cutset` from both ends. -/
def goTrimCutset (cut : List Char) (s : List Char) : List Char :=
  ((s.dropWhile (cut.contains ·)).reverse.dropWhile (cut.contains ·)).reverse

/-- Index of the first occurrence of `sep` in `s` (`strings.Index`). -/
def goIndexOfFrom (sep : List Char) : List Char → Option Nat
  | [] => if sep = [] then some 0 else none
  | c :: rest =>
      if sep.isPrefixOf (c :: rest) then some 0
      else (goIndexOfFrom sep rest).map (· + 1)

/-- `strings.Contains`. -/
def goContains (s sep : List Char) : Bool := (goIndexOfFrom sep s).isSome

/-- `strings.SplitN s sep 2` when `sep` occurs: the parts before and after
the first occurrence.  When `sep` does not occur, Go returns `[s]`; the
callers below only split after a `Contains` check, so we return `(s, [])`
in that case. -/
def goSplitN2 (s sep : List Char) : List Char × List Char :=
  match goIndexOfFrom sep s with
  | some i => (s.take i, s.drop (i + sep.length))
  | none => (s, [])

/-- Index of the first `{` (`strings.Index s "\x7b"`). -/
def goIndexChar (c : Char) (s : List Char) : Option Nat :=
  goIndexOfFrom [c] s

/-- Index of the last occurrence of character `c` (`strings.LastIndex`). -/
def goLastIndexChar (c : Char) (s : List Char) : Option Nat :=
  (goIndexOfFrom [c] s.reverse).map (fun i => s.length - 1 - i)

/-! ## The argument normalizer (`pkg/ai/toolcallextract.go`). -/

/-- `toSnakeCaseLocal` from `pkg/ai/toolcallextract.go`: before every
uppercase ASCII letter that is not the first character an underscore is
inserted, then the whole string is lower-cased.  (`first` is true when no
character has been consumed yet, mirroring the `i > 0` byte-offset test.) -/
def toSnakeAux (first : Bool) : List Char → List Char
  | [] => []
  | c :: rest =>
      if !first ∧ 'A' ≤ c ∧ c ≤ 'Z' then
        '_' :: c :: toSnakeAux false rest
      else
        c :: toSnakeAux false rest

def toSnakeCaseLocal (s : List Char) : List Char :=
  goToLower (toSnakeAux true s)

/-! ## Dynamically-typed Go values.

`GoValue` models Go's `interface\x7b\x7d` as it occurs in tool-call argument
maps.  `encoding/json` decodes every JSON number into `float64` (`.float`),
while Go code may also store genuine `int` values (`.int`); the validator
distinguishes the two by a dynamic type assertion, so the model must, too. -/

inductive GoValue where
  | str (s : List Char)
  | int (n : Int)
  | float (q : ℚ)
  | bool (b : Bool)
  | list (xs : List GoValue)
  | map (fields : List (List Char × GoValue))
  | null
deriving Repr

/-- A `types.ToolCall`: the `arguments` map may be `nil` (`none`) — e.g. a
JSON object with no `arguments` field decodes to a call with a nil map. -/
structure ToolCallV where
  name : List Char
  arguments : Option (List (List Char × GoValue))
deriving Repr

/-- `normalizeToolCall`'s argument loop: each key is converted with
`toSnakeCaseLocal`, lower-cased, and inserted only when not already
present ("prefer existing, do not overwrite").  Go iterates the map in
randomized order; the model iterates in list order. -/
def normalizeArgs (acc : List (List Char × GoValue)) :
    List (List Char × GoValue) → List (List Char × GoValue)
  | [] => acc
  | (k, v) :: rest =>
      if (acc.map Prod.fst).contains (goToLower (toSnakeCaseLocal k)) then
        normalizeArgs acc rest
      else normalizeArgs (acc ++ [(goToLower (toSnakeCaseLocal k), v)]) rest

/-- `normalizeToolCall` from `pkg/ai/toolcallextract.go`: tool name to
snake-case, argument keys to lower-cased snake-case; always allocates a
fresh (non-nil) arguments map. -/
def normalizeToolCall (tc : ToolCallV) : ToolCallV :=
  { name := toSnakeCaseLocal tc.name
    arguments := some (normalizeArgs [] (tc.arguments.getD [])) }

/-! ### Idempotence of the normalizer (claim C9). -/

theorem char_toNat_ofNat_valid (n : Nat) (h : n.isValidChar) :
    (Char.ofNat n).toNat = n := by
  unfold Char.ofNat
  rw [dif_pos h]
  rfl

theorem char_le_iff_toNat (a b : Char) : a ≤ b ↔ a.toNat ≤ b.toNat := Iff.rfl

theorem goToLowerChar_not_upper (c : Char) :
    ¬('A' ≤ goToLowerChar c ∧ goToLowerChar c ≤ 'Z') := by
  unfold goToLowerChar
  split
  case isTrue h =>
    have h1 : (65 : Nat) ≤ c.toNat := (char_le_iff_toNat 'A' c).mp h.1
    have h2 : c.toNat ≤ 90 := (char_le_iff_toNat c 'Z').mp h.2
    have hv : (c.toNat + 32).isValidChar := Or.inl (by omega)
    intro hc
    have h3 : (65 : Nat) ≤ (Char.ofNat (c.toNat + 32)).toNat :=
      (char_le_iff_toNat 'A' _).mp hc.1
    have h4 : (Char.ofNat (c.toNat + 32)).toNat ≤ 90 :=
      (char_le_iff_toNat _ 'Z').mp hc.2
    rw [char_toNat_ofNat_valid _ hv] at h4
    omega
  case isFalse h => exact h

theorem contains_iff_memL {α : Type} [BEq α] [LawfulBEq α] (l : List α) (a : α) :
    l.contains a = true ↔ a ∈ l := by
  simp [List.contains, List.elem_iff]

theorem goToLowerChar_idem (c : Char) :
    goToLowerChar (goToLowerChar c) = goToLowerChar c := by
  have h := goToLowerChar_not_upper c
  generalize hd : goToLowerChar c = d at h ⊢
  unfold goToLowerChar
  exact if_neg h

theorem goToLower_idem (s : List Char) : goToLower (goToLower s) = goToLower s := by
  unfold goToLower
  rw [List.map_map]
  exact List.map_congr_left fun c _ => goToLowerChar_idem c

theorem toSnakeAux_of_no_upper (b : Bool) (s : List Char)
    (h : ∀ c ∈ s, ¬('A' ≤ c ∧ c ≤ 'Z')) : toSnakeAux b s = s := by
  induction s generalizing b with
  | nil => rfl
  | cons c rest ih =>
      unfold toSnakeAux
      rw [if_neg, ih false fun x hx => h x (List.mem_cons_of_mem c hx)]
      intro hc
      exact h c (List.mem_cons_self c rest) ⟨hc.2.1, hc.2.2⟩

theorem toSnakeAux_goToLower (b : Bool) (s : List Char) :
    toSnakeAux b (goToLower s) = goToLower s := by
  refine toSnakeAux_of_no_upper b _ fun c hc => ?_
  obtain ⟨x, _, rfl⟩ := List.mem_map.mp hc
  exact goToLowerChar_not_upper x

theorem toSnakeCaseLocal_idem (s : List Char) :
    toSnakeCaseLocal (toSnakeCaseLocal s) = toSnakeCaseLocal s := by
  unfold toSnakeCaseLocal
  rw [toSnakeAux_goToLower, goToLower_idem]

theorem goToLower_toSnakeCaseLocal (s : List Char) :
    goToLower (toSnakeCaseLocal s) = toSnakeCaseLocal s := by
  unfold toSnakeCaseLocal
  rw [goToLower_idem]

/-- A key already produced by the normalizer is fixed by renormalization. -/
theorem normKey_fixed (k : List Char) :
    goToLower (toSnakeCaseLocal (goToLower (toSnakeCaseLocal k))) =
      goToLower (toSnakeCaseLocal k) := by
  rw [goToLower_toSnakeCaseLocal, goToLower_toSnakeCaseLocal, toSnakeCaseLocal_idem]

theorem normalizeArgs_keys_norm (l acc : List (List Char × GoValue))
    (hacc : ∀ p ∈ acc, goToLower (toSnakeCaseLocal p.1) = p.1) :
    ∀ p ∈ normalizeArgs acc l, goToLower (toSnakeCaseLocal p.1) = p.1 := by
  induction l generalizing acc with
  | nil => exact hacc
  | cons kv rest ih =>
      obtain ⟨k, v⟩ := kv
      unfold normalizeArgs
      split
      · exact ih acc hacc
      · refine ih _ fun p hp => ?_
        rcases List.mem_append.mp hp with h | h
        · exact hacc p h
        · have : p = (goToLower (toSnakeCaseLocal k), v) := List.mem_singleton.mp h
          rw [this]
          exact normKey_fixed k

theorem normalizeArgs_keys_nodup (l acc : List (List Char × GoValue))
    (hacc : ((acc.map Prod.fst)).Nodup) :
    ((normalizeArgs acc l).map Prod.fst).Nodup := by
  induction l generalizing acc with
  | nil => exact hacc
  | cons kv rest ih =>
      obtain ⟨k, v⟩ := kv
      unfold normalizeArgs
      split
      case isTrue h => exact ih acc hacc
      case isFalse h =>
        refine ih _ ?_
        rw [List.map_append, List.map_singleton]
        refine List.Nodup.append hacc (List.nodup_singleton _) ?_
        intro x hx hx2
        rw [List.mem_singleton] at hx2
        subst hx2
        exact h ((contains_iff_memL _ _).mpr hx)

theorem normalizeArgs_of_normalized (l acc : List (List Char × GoValue))
    (hl : ∀ p ∈ l, goToLower (toSnakeCaseLocal p.1) = p.1)
    (hd : (acc.map Prod.fst ++ l.map Prod.fst).Nodup) :
    normalizeArgs acc l = acc ++ l := by
  induction l generalizing acc with
  | nil => simp [normalizeArgs]
  | cons kv rest ih =>
      obtain ⟨k, v⟩ := kv
      unfold normalizeArgs
      have hk : goToLower (toSnakeCaseLocal k) = k :=
        hl (k, v) (List.mem_cons_self _ _)
      rw [if_neg, hk]
      · rw [ih (acc ++ [(k, v)])
          (fun p hp => hl p (List.mem_cons_of_mem _ hp))]
        · simp
        · simpa using hd
      · rw [hk]
        intro hc
        have hmem : k ∈ acc.map Prod.fst := (contains_iff_memL _ _).mp hc
        have : (List.map Prod.fst acc ++ k :: List.map Prod.fst rest).Nodup := by
          simpa using hd
        exact (List.disjoint_of_nodup_append this) hmem (List.mem_cons_self _ _)

/-- C9 -- Normalization idempotence: `toSnakeCaseLocal` applied twice equals
`toSnakeCaseLocal` applied once, and consequently `normalizeToolCall` is
idempotent on whole tool calls. -/
theorem c9_normalization_idempotent (s : List Char) (tc : ToolCallV) :
    toSnakeCaseLocal (toSnakeCaseLocal s) = toSnakeCaseLocal s ∧
      normalizeToolCall (normalizeToolCall tc) = normalizeToolCall tc := by
  refine ⟨toSnakeCaseLocal_idem s, ?_⟩
  unfold normalizeToolCall
  simp only [Option.getD_some]
  congr 1
  · exact toSnakeCaseLocal_idem tc.name
  · congr 1
    have h1 := normalizeArgs_keys_norm (tc.arguments.getD []) [] (by simp)
    have h2 := normalizeArgs_keys_nodup (tc.arguments.getD []) [] (by simp)
    have := normalizeArgs_of_normalized (normalizeArgs [] (tc.arguments.getD [])) [] h1
      (by simpa using h2)
    simpa using this

/-! ## Tool registry and validator (`pkg/tools`).

The registry stores schemas keyed by name (a Go map; modelled as an
association list with insert-replace registration).  `ValidateToolCall`
is translated from the source: it looks the tool name up by **exact**
match only, looks each schema argument up under its **raw** key only, and
checks an `int` argument with a dynamic `val.(int)` type assertion. -/

structure ToolArgumentS where
  name : List Char
  type : List Char
  required : Bool
deriving Repr, DecidableEq

structure ToolSchemaS where
  name : List Char
  arguments : List ToolArgumentS
deriving Repr, DecidableEq

structure ToolRegistryS where
  tools : List (List Char × ToolSchemaS)
  impls : List (List Char)
deriving Repr

/-- Go map lookup (`m[k]`): keys are unique, so first match suffices. -/
def assocGet {α : Type} (m : List (List Char × α)) (k : List Char) : Option α :=
  (m.find? (fun p => p.1 = k)).map Prod.snd

/-- Go map insert (`m[k] = v`): replaces any existing binding. -/
def assocSet {α : Type} (m : List (List Char × α)) (k : List Char) (v : α) :
    List (List Char × α) :=
  if (m.map Prod.fst).contains k then
    m.map (fun p => if p.1 = k then (k, v) else p)
  else m ++ [(k, v)]

/-- `RegisterTool`: store schema and implementation under `schema.Name`. -/
def registerTool (reg : ToolRegistryS) (schema : ToolSchemaS) : ToolRegistryS :=
  { tools := assocSet reg.tools schema.name schema
    impls := if reg.impls.contains schema.name then reg.impls else reg.impls ++ [schema.name] }

/-- Structured rendering of the validator's `fmt.Errorf` failures. -/
inductive ValErr where
  | toolNotFound (name : List Char)
  | missingArg (tool arg : List Char)
  | wrongType (tool arg expected : List Char)
deriving Repr, DecidableEq

/-- The argument loop of `ValidateToolCall`: for each schema argument, a
raw-key lookup; required-and-absent is an error; a present value is
type-checked by dynamic type (`string` / `int` / `bool`; other declared
types are not checked). -/
def checkArgs (tool : List Char) (args : List (List Char × GoValue)) :
    List ToolArgumentS → Option ValErr
  | [] => none
  | arg :: rest =>
      match assocGet args arg.name with
      | none =>
          if arg.required then some (.missingArg tool arg.name)
          else checkArgs tool args rest
      | some v =>
          if arg.type = "string".data then
            match v with
            | .str _ => checkArgs tool args rest
            | _ => some (.wrongType tool arg.name "string".data)
          else if arg.type = "int".data then
            match v with
            | .int _ => checkArgs tool args rest
            | _ => some (.wrongType tool arg.name "int".data)
          else if arg.type = "bool".data then
            match v with
            | .bool _ => checkArgs tool args rest
            | _ => some (.wrongType tool arg.name "bool".data)
          else checkArgs tool args rest

/-- `ValidateToolCall` (`pkg/tools`, the executor/registry source file):
exact-name schema lookup, then the argument loop.  `none` means valid. -/
def ValidateToolCall (reg : ToolRegistryS) (call : ToolCallV) : Option ValErr :=
  match assocGet reg.tools call.name with
  | none => some (.toolNotFound call.name)
  | some schema => checkArgs call.name (call.arguments.getD []) schema.arguments

/-- `RegisterDefaultTools`: the built-in registrations are camelCase
(`WriteFile\x2ffilePath`, `RunCommand\x2fcommand`, `ApplyPatch\x2ffilePath`). -/
def defaultRegistry : ToolRegistryS :=
  registerTool
    (registerTool
      (registerTool ⟨[], []⟩
        ⟨"WriteFile".data,
          [⟨"filePath".data, "string".data, true⟩,
           ⟨"content".data, "string".data, true⟩]⟩)
      ⟨"RunCommand".data, [⟨"command".data, "string".data, true⟩]⟩)
    ⟨"ApplyPatch".data,
      [⟨"filePath".data, "string".data, true⟩,
       ⟨"patchContent".data, "string".data, true⟩]⟩

/-- The registry of the spec's validation example: a schema registered
under `write_file` with required string arguments `file_path`, `content`. -/
def writeFileSnakeRegistry : ToolRegistryS :=
  registerTool ⟨[], []⟩
    ⟨"write_file".data,
      [⟨"file_path".data, "string".data, true⟩,
       ⟨"content".data, "string".data, true⟩]⟩

/-- C1 -- Validator name/key tolerance: the claim says
`\x7bname:"WriteFile", arguments:\x7bfilePath, content\x7d\x7d` validates against a
schema registered as `write_file`; on the source it does **not** — the
exact-match lookup fails with a tool-not-found error (the same package's
`TestValidateToolCall_WriteFileVariants` expects success, so the code
contradicts its own test).  The missing-required-argument half of the
claim does hold: `write_file` with only `file_path` fails naming the
tool and the argument `content`. -/
theorem c1_validator_rejects_camelCase_call :
    ValidateToolCall writeFileSnakeRegistry
      ⟨"WriteFile".data,
        some [("filePath".data, .str "a.txt".data), ("content".data, .str "x".data)]⟩ =
      some (.toolNotFound "WriteFile".data) ∧
    ValidateToolCall writeFileSnakeRegistry
      ⟨"write_file".data, some [("file_path".data, .str "c.txt".data)]⟩ =
      some (.missingArg "write_file".data "content".data) := by
  constructor <;> rfl

/-- C2 -- Integer tolerance: the claim (and the package's own
`TestValidateToolCall_IntAcceptance`) says a declared `int` argument
accepts the numeric value `2.0`; the source's `val.(int)` type assertion
rejects every `float64`, including `2.0` (it also rejects `2.5`, the half
of the claim that holds, though by dynamic type rather than by checking
the fractional part). -/
theorem c2_validator_rejects_float_int :
    ValidateToolCall
      (registerTool ⟨[], []⟩ ⟨"TestInt".data, [⟨"count".data, "int".data, true⟩]⟩)
      ⟨"TestInt".data, some [("count".data, .float 2)]⟩ =
      some (.wrongType "TestInt".data "count".data "int".data) ∧
    ValidateToolCall
      (registerTool ⟨[], []⟩ ⟨"TestInt".data, [⟨"count".data, "int".data, true⟩]⟩)
      ⟨"TestInt".data, some [("count".data, .float (5 / 2))]⟩ =
      some (.wrongType "TestInt".data "count".data "int".data) := by
  constructor <;> rfl

/-! ## The tool executor (`ToolExecutor.Execute`, `pkg/tools`).

Each attempt runs the implementation on its own goroutine and races it
against a timer.  The model abstracts one attempt of the (external)
implementation as an `AttemptSpec`: the value or error it returns, and
whether it takes longer than the configured `Timeout`.  The goroutine of
a timed-out attempt is abandoned, not killed; its eventual side effects
are outside the model (the code itself ignores them). -/

structure AttemptSpec where
  result : Except (List Char) GoValue
  exceedsTimeout : Bool

/-- Executor configuration: `RetryCount` (a Go `int`) and whether
`Timeout > 0` (with `Timeout = 0` no timer is armed and the attempt is
unbounded). -/
structure ExecutorCfg where
  registry : ToolRegistryS
  retryCount : Int
  timeoutPositive : Bool

inductive ExecErr where
  | validation (e : ValErr)
  | implNotFound (tool : List Char)
  | implErr (msg : List Char)
  | timeout (tool : List Char)
deriving Repr, DecidableEq

/-- What one attempt contributes, after the `select` race: a timeout error
when the timer is armed and the implementation overruns it, otherwise the
implementation's own result. -/
def attemptEff (timeoutPos : Bool) (behavior : Nat → AttemptSpec) (tool : List Char)
    (i : Nat) : Except ExecErr GoValue :=
  if timeoutPos ∧ (behavior i).exceedsTimeout then .error (.timeout tool)
  else (behavior i).result.mapError ExecErr.implErr

/-- The retry loop: runs attempts `attempt, attempt+1, ...` while `rem`
attempts remain, returning on the first success and otherwise the last
observed error, together with the number of attempts actually run.
(The base case's `lastErr` is only reached after at least one attempt,
which will have set it.) -/
def runAttempts (eff : Nat → Except ExecErr GoValue) (lastErr : ExecErr) :
    Nat → Nat → Except ExecErr GoValue × Nat
  | _, 0 => (.error lastErr, 0)
  | attempt, rem + 1 =>
      match eff attempt with
      | .ok v => (.ok v, 1)
      | .error e =>
          let r := runAttempts eff e (attempt + 1) rem
          (r.1, r.2 + 1)

/-- `ToolExecutor.Execute`: validate (returning the validation error
immediately), resolve the implementation, then retry up to
`max(RetryCount, 1)` attempts. -/
def ExecuteS (cfg : ExecutorCfg) (behavior : Nat → AttemptSpec) (call : ToolCallV) :
    Except ExecErr GoValue × Nat :=
  match ValidateToolCall cfg.registry call with
  | some e => (.error (.validation e), 0)
  | none =>
      if cfg.registry.impls.contains call.name then
        runAttempts (attemptEff cfg.timeoutPositive behavior call.name)
          (.implErr []) 1
          (if cfg.retryCount < 1 then 1 else cfg.retryCount).toNat
      else (.error (.implNotFound call.name), 0)

/-- First attempt index in `[start, start+rem)` whose effect is a success. -/
def firstSuccess (eff : Nat → Except ExecErr GoValue) :
    Nat → Nat → Option (Nat × GoValue)
  | _, 0 => none
  | start, rem + 1 =>
      match eff start with
      | .ok v => some (start, v)
      | .error _ => firstSuccess eff (start + 1) rem

/-- The error of attempt `i` (used only where `eff i` is an error). -/
def errAt (eff : Nat → Except ExecErr GoValue) (i : Nat) : ExecErr :=
  match eff i with
  | .error e => e
  | .ok _ => .implErr []

theorem firstSuccess_bounds (eff : Nat → Except ExecErr GoValue) (start rem k : Nat)
    (v : GoValue) (h : firstSuccess eff start rem = some (k, v)) :
    start ≤ k ∧ k < start + rem := by
  induction rem generalizing start with
  | zero => simp [firstSuccess] at h
  | succ rem ih =>
      unfold firstSuccess at h
      revert h
      cases heff : eff start with
      | ok w =>
          intro h
          simp only [Option.some.injEq, Prod.mk.injEq] at h
          omega
      | error e =>
          intro h
          have := ih (start + 1) h
          omega

theorem runAttempts_spec (eff : Nat → Except ExecErr GoValue) (lastErr : ExecErr)
    (start rem : Nat) (hrem : 0 < rem) :
    runAttempts eff lastErr start rem =
      match firstSuccess eff start rem with
      | some (k, v) => (Except.ok v, k + 1 - start)
      | none => (Except.error (errAt eff (start + rem - 1)), rem) := by
  induction rem generalizing start lastErr with
  | zero => omega
  | succ rem ih =>
      unfold runAttempts firstSuccess
      cases heff : eff start with
      | ok v => simp [heff]
      | error e =>
          rcases Nat.eq_zero_or_pos rem with hz | hpos
          · subst hz
            simp only [runAttempts]
            simp [firstSuccess, errAt, heff]
          · dsimp only
            rw [ih e (start + 1) hpos]
            cases hfs : firstSuccess eff (start + 1) rem with
            | some kv =>
                obtain ⟨k, v⟩ := kv
                have hb := firstSuccess_bounds eff (start + 1) rem k v hfs
                simp only [hfs, Prod.mk.injEq]
                exact ⟨trivial, by omega⟩
            | none =>
                simp only [hfs]
                have : start + 1 + rem - 1 = start + (rem + 1) - 1 := by omega
                rw [this]

/-- C3 -- Executor contract: `Execute` (i) returns a validation failure
immediately, running no attempt; (ii) returns `implementation not found`
for an unregistered implementation, running no attempt; (iii) otherwise
runs attempts `1..max(RetryCount,1)` in order, returning the first
successful attempt's value having run exactly that many attempts, and on
exhaustion the last observed error (a timeout error for an attempt that
overran a positive `Timeout`, via `attemptEff`; with `Timeout = 0` —
`timeoutPositive = false` — `attemptEff` ignores overruns, so an attempt
is unbounded); (iv) never runs more than `max(RetryCount,1)` attempts. -/
theorem c3_executor_retry_timeout_contract :
    (∀ (cfg : ExecutorCfg) (behavior : Nat → AttemptSpec) (call : ToolCallV)
        (e : ValErr), ValidateToolCall cfg.registry call = some e →
        ExecuteS cfg behavior call = (.error (.validation e), 0)) ∧
    (∀ (cfg : ExecutorCfg) (behavior : Nat → AttemptSpec) (call : ToolCallV),
        ValidateToolCall cfg.registry call = none →
        cfg.registry.impls.contains call.name = false →
        ExecuteS cfg behavior call = (.error (.implNotFound call.name), 0)) ∧
    (∀ (cfg : ExecutorCfg) (behavior : Nat → AttemptSpec) (call : ToolCallV),
        ValidateToolCall cfg.registry call = none →
        cfg.registry.impls.contains call.name = true →
        ExecuteS cfg behavior call =
          match firstSuccess (attemptEff cfg.timeoutPositive behavior call.name) 1
              (if cfg.retryCount < 1 then 1 else cfg.retryCount).toNat with
          | some (k, v) => (Except.ok v, k)
          | none =>
              (Except.error (errAt (attemptEff cfg.timeoutPositive behavior call.name)
                  (if cfg.retryCount < 1 then 1 else cfg.retryCount).toNat),
                (if cfg.retryCount < 1 then 1 else cfg.retryCount).toNat)) ∧
    (∀ (cfg : ExecutorCfg) (behavior : Nat → AttemptSpec) (call : ToolCallV),
        (ExecuteS cfg behavior call).2 ≤
          (if cfg.retryCount < 1 then 1 else cfg.retryCount).toNat) := by
  have hretry : ∀ (n : Int), 0 < (if n < 1 then 1 else n).toNat := by
    intro n
    split <;> omega
  refine ⟨?_, ?_, ?_, ?_⟩
  · intro cfg behavior call e h
    unfold ExecuteS
    rw [h]
  · intro cfg behavior call hv himpl
    unfold ExecuteS
    rw [hv, himpl]
    simp
  · intro cfg behavior call hv himpl
    unfold ExecuteS
    rw [hv]
    simp only [himpl, if_true]
    rw [runAttempts_spec _ _ _ _ (hretry cfg.retryCount)]
    cases hfs : firstSuccess (attemptEff cfg.timeoutPositive behavior call.name) 1
        (if cfg.retryCount < 1 then 1 else cfg.retryCount).toNat with
    | some kv =>
        obtain ⟨k, v⟩ := kv
        have hb := firstSuccess_bounds _ _ _ _ _ hfs
        simp only [hfs]
        have : k + 1 - 1 = k := by omega
        rw [this]
    | none =>
        simp only [hfs]
        have : 1 + (if cfg.retryCount < 1 then 1 else cfg.retryCount).toNat - 1 =
            (if cfg.retryCount < 1 then 1 else cfg.retryCount).toNat := by omega
        rw [this]
  · intro cfg behavior call
    unfold ExecuteS
    cases hv : ValidateToolCall cfg.registry call with
    | some e => simp
    | none =>
        by_cases himpl : cfg.registry.impls.contains call.name = true
        · rw [if_pos himpl, runAttempts_spec _ _ _ _ (hretry cfg.retryCount)]
          cases hfs : firstSuccess (attemptEff cfg.timeoutPositive behavior call.name) 1
              (if cfg.retryCount < 1 then 1 else cfg.retryCount).toNat with
          | some kv =>
              obtain ⟨k, v⟩ := kv
              have hb := firstSuccess_bounds _ _ _ _ _ hfs
              simp only [hfs]
              omega
          | none => simp [hfs]
        · rw [if_neg himpl]
          simp

/-- A tool implementation failing on attempt 1 and succeeding on attempt 2. -/
def flakyBehavior : Nat → AttemptSpec
  | 1 => ⟨.error "boom".data, false⟩
  | _ => ⟨.ok (.str "out".data), false⟩

/-- Witness for C3: with `RetryCount = 3` and a behaviour that fails once
then succeeds, the executor returns the second attempt's value having run
exactly 2 attempts. -/
theorem c3_executor_retry_timeout_contract_witness :
    ExecuteS ⟨defaultRegistry, 3, false⟩ flakyBehavior
      ⟨"RunCommand".data, some [("command".data, .str "ls".data)]⟩ =
      (.ok (.str "out".data), 2) := by
  have h := c3_executor_retry_timeout_contract.2.2.1
    ⟨defaultRegistry, 3, false⟩ flakyBehavior
    ⟨"RunCommand".data, some [("command".data, .str "ls".data)]⟩
    rfl rfl
  rw [h]
  rfl

/-! ## A model of `encoding/json` (the fragment this system relies on).

Numbers decode to `.float` (Go decodes every JSON number into `float64`;
the model keeps the exact rational).  Objects keep their fields in
document order; a duplicate key overwrites in place (Go map semantics).
`\u` escapes outside the surrogate range are supported; surrogate pairs
are outside the modelled fragment. -/

def jsonIsSpace (c : Char) : Bool :=
  c = ' ' || c = '\t' || c = '\n' || c = '\r'

def skipWs (cs : List Char) : List Char := cs.dropWhile jsonIsSpace

def isHexDigit (c : Char) : Bool :=
  ('0' ≤ c ∧ c ≤ '9') || ('a' ≤ c ∧ c ≤ 'f') || ('A' ≤ c ∧ c ≤ 'F')

def hexVal (c : Char) : Nat :=
  if '0' ≤ c ∧ c ≤ '9' then c.toNat - '0'.toNat
  else if 'a' ≤ c ∧ c ≤ 'f' then c.toNat - 'a'.toNat + 10
  else if 'A' ≤ c ∧ c ≤ 'F' then c.toNat - 'A'.toNat + 10
  else 0

/-- Body of a JSON string, after the opening quote. -/
def parseStringBody : Nat → List Char → Option (List Char × List Char)
  | 0, _ => none
  | _, [] => none
  | fuel + 1, c :: rest =>
      if c = dquoteC then some ([], rest)
      else if c = '\\' then
        match rest with
        | [] => none
        | e :: rest2 =>
            let cont (d : Char) (rs : List Char) : Option (List Char × List Char) :=
              (parseStringBody fuel rs).map (fun p => (d :: p.1, p.2))
            if e = dquoteC then cont dquoteC rest2
            else if e = '\\' then cont '\\' rest2
            else if e = '/' then cont '/' rest2
            else if e = 'n' then cont '\n' rest2
            else if e = 't' then cont '\t' rest2
            else if e = 'r' then cont '\r' rest2
            else if e = 'b' then cont (Char.ofNat 8) rest2
            else if e = 'f' then cont (Char.ofNat 12) rest2
            else if e = 'u' then
              match rest2 with
              | h1 :: h2 :: h3 :: h4 :: rest3 =>
                  if isHexDigit h1 ∧ isHexDigit h2 ∧ isHexDigit h3 ∧ isHexDigit h4 then
                    cont (Char.ofNat
                      (((hexVal h1 * 16 + hexVal h2) * 16 + hexVal h3) * 16 + hexVal h4)) rest3
                  else none
              | _ => none
            else none
      else (parseStringBody fuel rest).map (fun p => (c :: p.1, p.2))

def isDigit (c : Char) : Bool := '0' ≤ c ∧ c ≤ '9'

def digitsVal (ds : List Char) : Nat :=
  ds.foldl (fun acc c => acc * 10 + (c.toNat - '0'.toNat)) 0

/-- A JSON number: `-?(0|[1-9][0-9]*)(\.[0-9]+)?([eE][+-]?[0-9]+)?`. -/
def parseNumber (cs : List Char) : Option (ℚ × List Char) :=
  let (neg, cs1) :=
    match cs with
    | '-' :: rest => (true, rest)
    | _ => (false, cs)
  let intDigits := cs1.takeWhile isDigit
  let cs2 := cs1.dropWhile isDigit
  if intDigits = [] then none
  else if intDigits.length > 1 ∧ intDigits.head? = some '0' then none
  else
    let (fracDigits, cs3) :=
      match cs2 with
      | '.' :: rest =>
          (rest.takeWhile isDigit, rest.dropWhile isDigit)
      | _ => ([], cs2)
    if cs2 ≠ [] ∧ cs2.head? = some '.' ∧ fracDigits = [] then none
    else
      let expPart : Option (Bool × List Char × List Char) :=
        match cs3 with
        | e :: rest =>
            if e = 'e' ∨ e = 'E' then
              match rest with
              | '+' :: rest2 => some (false, rest2.takeWhile isDigit, rest2.dropWhile isDigit)
              | '-' :: rest2 => some (true, rest2.takeWhile isDigit, rest2.dropWhile isDigit)
              | _ => some (false, rest.takeWhile isDigit, rest.dropWhile isDigit)
            else none
        | [] => none
      match expPart with
      | some (_, [], _) => none
      | some (eneg, eds, cs4) =>
          let mant : ℚ := (digitsVal intDigits : ℚ) +
            (digitsVal fracDigits : ℚ) / ((10 : ℚ) ^ fracDigits.length)
          let mant := if neg then -mant else mant
          let exp : ℚ :=
            if eneg then ((10 : ℚ) ^ digitsVal eds)⁻¹ else (10 : ℚ) ^ digitsVal eds
          some (mant * exp, cs4)
      | none =>
          let mant : ℚ := (digitsVal intDigits : ℚ) +
            (digitsVal fracDigits : ℚ) / ((10 : ℚ) ^ fracDigits.length)
          some ((if neg then -mant else mant), cs3)

mutual

def parseValueF : Nat → List Char → Option (GoValue × List Char)
  | 0, _ => none
  | fuel + 1, cs =>
      match skipWs cs with
      | [] => none
      | c :: rest =>
          if c = dquoteC then
            (parseStringBody (fuel + 1) rest).map (fun p => (GoValue.str p.1, p.2))
          else if c = lbraceC then parseMembersF fuel rest true []
          else if c = '[' then parseElemsF fuel rest true []
          else if "true".data.isPrefixOf (c :: rest) then
            some (.bool true, (c :: rest).drop 4)
          else if "false".data.isPrefixOf (c :: rest) then
            some (.bool false, (c :: rest).drop 5)
          else if "null".data.isPrefixOf (c :: rest) then
            some (.null, (c :: rest).drop 4)
          else (parseNumber (c :: rest)).map (fun p => (GoValue.float p.1, p.2))

/-- Object members after the opening brace (`first` = no member read yet).
A duplicate key overwrites the earlier binding in place. -/
def parseMembersF : Nat → List Char → Bool → List (List Char × GoValue) →
    Option (GoValue × List Char)
  | 0, _, _, _ => none
  | fuel + 1, cs, first, acc =>
      match skipWs cs with
      | [] => none
      | c :: rest =>
          if c = rbraceC ∧ first then some (.map acc, rest)
          else
            let afterComma : Option (List Char) :=
              if first then some (c :: rest)
              else if c = rbraceC then none
              else if c = ',' then some rest
              else none
            match afterComma with
            | none => if c = rbraceC then some (.map acc, rest) else none
            | some cs2 =>
                match skipWs cs2 with
                | q :: rest2 =>
                    if q = dquoteC then
                      match parseStringBody (fuel + 1) rest2 with
                      | some (key, rest3) =>
                          match skipWs rest3 with
                          | ':' :: rest4 =>
                              match parseValueF fuel rest4 with
                              | some (v, rest5) =>
                                  parseMembersF fuel rest5 false (assocSet acc key v)
                              | none => none
                          | _ => none
                      | none => none
                    else none
                | [] => none

def parseElemsF : Nat → List Char → Bool → List GoValue → Option (GoValue × List Char)
  | 0, _, _, _ => none
  | fuel + 1, cs, first, acc =>
      match skipWs cs with
      | [] => none
      | c :: rest =>
          if c = ']' ∧ first then some (.list acc, rest)
          else
            let afterComma : Option (List Char) :=
              if first then some (c :: rest)
              else if c = ']' then none
              else if c = ',' then some rest
              else none
            match afterComma with
            | none => if c = ']' then some (.list acc, rest) else none
            | some cs2 =>
                match parseValueF fuel cs2 with
                | some (v, rest2) => parseElemsF fuel rest2 false (acc ++ [v])
                | none => none

end

/-- `json.Unmarshal` of a whole input: one value, then only whitespace. -/
def parseJson (cs : List Char) : Option GoValue :=
  match parseValueF (2 * cs.length + 8) cs with
  | some (v, rest) => if skipWs rest = [] then some v else none
  | none => none

/-! ## Decoding parsed JSON into the Go structs the system uses. -/

/-- `strings.EqualFold` (ASCII fragment): Go matches JSON keys to struct
fields case-insensitively when no exact match exists; for the structs
below the field names never collide, so a key matches at most one field
and fold-equality is the whole story. -/
def eqFold (a b : List Char) : Bool := goToLower a = goToLower b

/-- `json.Unmarshal` into `types.ToolCall \x7bName string; Arguments
map[string]interface\x7b\x7d\x7d`: the top level must be an object (or `null`,
which leaves the zero value); unknown fields are ignored; a `null` field
value leaves the field untouched; a wrong-typed field value is an error. -/
def decodeToolCallV (v : GoValue) : Option ToolCallV :=
  match v with
  | .null => some ⟨[], none⟩
  | .map fields =>
      fields.foldl
        (fun acc (kv : List Char × GoValue) =>
          match acc with
          | none => none
          | some tc =>
              if eqFold kv.1 "name".data then
                match kv.2 with
                | .str s => some { tc with name := s }
                | .null => some tc
                | _ => none
              else if eqFold kv.1 "arguments".data then
                match kv.2 with
                | .map m => some { tc with arguments := some m }
                | .null => some tc
                | _ => none
              else some tc)
        (some ⟨[], none⟩)
  | _ => none

/-- `json.Unmarshal` into `types.ToolCallRequest \x7bToolCall ToolCall
`json:"tool_call"`\x7d`: returns the decoded inner call. -/
def decodeToolCallRequest (v : GoValue) : Option ToolCallV :=
  match v with
  | .null => some ⟨[], none⟩
  | .map fields =>
      fields.foldl
        (fun acc (kv : List Char × GoValue) =>
          match acc with
          | none => none
          | some tc =>
              if eqFold kv.1 "tool_call".data then
                match kv.2 with
                | .null => some tc
                | .map m => decodeToolCallV (.map m)
                | _ => none
              else some tc)
        (some ⟨[], none⟩)
  | _ => none

/-! ## The tool-call extractor (`pkg/ai/toolcallextract.go`). -/

/-- `parseToolCallJSON`: try the `tool_call` envelope, then a bare
`ToolCall`; in both cases the decoded name must be non-empty. -/
def parseToolCallJSON (js : List Char) : Option ToolCallV :=
  match parseJson js with
  | none => none
  | some v =>
      match decodeToolCallRequest v with
      | some req =>
          if req.name ≠ [] then some req
          else
            match decodeToolCallV v with
            | some tc => if tc.name ≠ [] then some tc else none
            | none => none
      | none =>
          match decodeToolCallV v with
          | some tc => if tc.name ≠ [] then some tc else none
          | none => none

mutual

/-- `findToolCallInJSON`: recursively scan every string field of every
nested object/array for an embedded tool-call JSON string.  Go iterates
each map in randomized order; the model iterates in document order. -/
def findToolCallInJSON : GoValue → Option ToolCallV
  | .map fields => findTCFields fields
  | .list xs => findTCList xs
  | _ => none

def findTCFields : List (List Char × GoValue) → Option ToolCallV
  | [] => none
  | (_, v) :: rest =>
      match v with
      | .str s =>
          match parseToolCallJSON s with
          | some tc => some tc
          | none => findTCFields rest
      | _ =>
          match findToolCallInJSON v with
          | some tc => some tc
          | none => findTCFields rest

def findTCList : List GoValue → Option ToolCallV
  | [] => none
  | v :: rest =>
      match findToolCallInJSON v with
      | some tc => some tc
      | none => findTCList rest

end

/-- The regexp's fence opener, `"```json"`. -/
def fenceOpen : List Char := List.replicate 3 backtickC ++ "json".data

def fenceClose : List Char := List.replicate 3 backtickC

/-- RE2 `\s` (`[\t\n\f\r ]`, plus `\v`). -/
def reIsSpace (c : Char) : Bool :=
  c = ' ' || c = '\t' || c = '\n' || c = '\r' ||
    c = Char.ofNat 11 || c = Char.ofNat 12

/-- After a `\x7b`, the lazy `.*?\x7d` of `(?s)` + "\s*```": the shortest
extent ending at a `\x7d` that is followed by `\s*` and a closing fence. -/
def lazyToBrace (acc : List Char) : List Char → Option (List Char)
  | [] => none
  | c :: rest =>
      if c = rbraceC ∧ fenceClose.isPrefixOf (rest.dropWhile reIsSpace) then
        some (acc ++ [c])
      else lazyToBrace (acc ++ [c]) rest

/-- Attempt the fence pattern at the current position (which must start
with the opener). -/
def matchFenceAt (cs : List Char) : Option (List Char) :=
  let rest := (cs.drop fenceOpen.length).dropWhile reIsSpace
  match rest with
  | c :: r => if c = lbraceC then lazyToBrace [lbraceC] r else none
  | [] => none

/-- Leftmost match of the fenced-block regexp
`` (?s)```json\s*(\x7b.*?\x7d)\s*``` ``, returning the captured group. -/
def findFenceFrom : List Char → Option (List Char)
  | [] => none
  | c :: rest =>
      if fenceOpen.isPrefixOf (c :: rest) then
        match matchFenceAt (c :: rest) with
        | some cap => some cap
        | none => findFenceFrom rest
      else findFenceFrom rest

/-- `JSONCodeBlockHandler.Extract`. -/
def jsonCodeBlockExtract (s : List Char) : Option ToolCallV :=
  match findFenceFrom s with
  | some cap => parseToolCallJSON cap
  | none => none

/-- The substring from the first `\x7b` to the last `\x7d`
(`InlineJSONHandler`'s candidate). -/
def inlineJSONSub (s : List Char) : Option (List Char) :=
  match goIndexChar lbraceC s, goLastIndexChar rbraceC s with
  | some st, some en => if st < en then some ((s.drop st).take (en - st + 1)) else none
  | _, _ => none

/-- `InlineJSONHandler.Extract`. -/
def inlineJSONExtract (s : List Char) : Option ToolCallV :=
  match inlineJSONSub s with
  | some js => parseToolCallJSON js
  | none => none

/-- Strategy 1 of `ExtractToolCall`: parse the whole text as JSON and
recursively scan it; normalize before validation; a validation failure
falls through to the handlers (returns `none` here). -/
def strategyOne (reg : Option ToolRegistryS) (s : List Char) :
    Option (ToolCallV × List Char) :=
  match parseJson s with
  | none => none
  | some raw =>
      match findToolCallInJSON raw with
      | none => none
      | some found =>
          match reg with
          | none => some (found, "json_recursive".data)
          | some r =>
              match ValidateToolCall r (normalizeToolCall found) with
              | none => some (found, "json_recursive".data)
              | some _ => none

/-- The handler loop of `ExtractToolCall`: first handler whose candidate
passes validation wins; with no registry the first candidate wins. -/
def tryHandlers (reg : Option ToolRegistryS) (s : List Char) :
    List (List Char × (List Char → Option ToolCallV)) → Option (ToolCallV × List Char)
  | [] => none
  | (nm, h) :: rest =>
      match h s with
      | none => tryHandlers reg s rest
      | some tc =>
          match reg with
          | none => some (tc, nm)
          | some r =>
              match ValidateToolCall r (normalizeToolCall tc) with
              | none => some (tc, nm)
              | some _ => tryHandlers reg s rest

/-- The default handler chain (`NewDefaultToolCallExtractor`): fenced
block, inline braces, then the unimplemented YAML handler (which always
fails softly). -/
def defaultHandlers : List (List Char × (List Char → Option ToolCallV)) :=
  [("json_code_block".data, jsonCodeBlockExtract),
   ("inline_json".data, inlineJSONExtract),
   ("yaml_block".data, fun _ => none)]

/-- `ExtractToolCall`: strategy 1, then the handler chain; `none` is the
"no valid tool-call found" outcome. -/
def ExtractToolCallS (reg : Option ToolRegistryS) (s : List Char) :
    Option (ToolCallV × List Char) :=
  match strategyOne reg s with
  | some res => some res
  | none => tryHandlers reg s defaultHandlers

/-! ### Claim C5: strategy priority of the extractor. -/

/-- C5 -- Extractor priority: for text that is not itself a JSON document
and whose tool call sits in a fenced ```json block, extraction reports
strategy `json_code_block`; for text with no fence whose first-\x7b-to-
last-\x7d substring carries the call, it reports `inline_json`; when both
parse to the same call (which validates, normalized, against the
registry), both return that identical call. -/
theorem c5_extractor_strategy_priority
    (r : ToolRegistryS) (s s' J J' : List Char) (tc : ToolCallV)
    (h1 : parseJson s = none)
    (h2 : findFenceFrom s = some J)
    (h3 : parseToolCallJSON J = some tc)
    (h4 : parseJson s' = none)
    (h5 : findFenceFrom s' = none)
    (h6 : inlineJSONSub s' = some J')
    (h7 : parseToolCallJSON J' = some tc)
    (hv : ValidateToolCall r (normalizeToolCall tc) = none) :
    ExtractToolCallS (some r) s = some (tc, "json_code_block".data) ∧
      ExtractToolCallS (some r) s' = some (tc, "inline_json".data) := by
  constructor
  · unfold ExtractToolCallS strategyOne
    rw [h1]
    unfold defaultHandlers
    unfold tryHandlers jsonCodeBlockExtract
    simp only [h2, h3, hv]
  · unfold ExtractToolCallS strategyOne
    rw [h4]
    unfold defaultHandlers
    unfold tryHandlers jsonCodeBlockExtract
    rw [h5]
    unfold tryHandlers inlineJSONExtract
    simp only [h6, h7, hv]

def c5FencedText : List Char :=
  ("Here is a tool call:\n```json\n\x7b\"tool_call\": \x7b\"name\": \"write_file\", \"arguments\": \x7b\"file_path\": \"foo.txt\", \"content\": \"bar\"\x7d\x7d\x7d\n```").data

def c5BareText : List Char :=
  ("Take this: \x7b\"tool_call\": \x7b\"name\": \"write_file\", \"arguments\": \x7b\"file_path\": \"foo.txt\", \"content\": \"bar\"\x7d\x7d\x7d thanks").data

def c5Obj : List Char :=
  ("\x7b\"tool_call\": \x7b\"name\": \"write_file\", \"arguments\": \x7b\"file_path\": \"foo.txt\", \"content\": \"bar\"\x7d\x7d\x7d").data

def c5Call : ToolCallV :=
  ⟨"write_file".data,
    some [("file_path".data, .str "foo.txt".data), ("content".data, .str "bar".data)]⟩

set_option maxRecDepth 1000000 in
/-- Witness for C5 at the spec's end-to-end example (against a registry
registered under `write_file` with snake_case arguments, which the
normalized call validates against). -/
theorem c5_extractor_strategy_priority_witness :
    ExtractToolCallS (some writeFileSnakeRegistry) c5FencedText =
      some (c5Call, "json_code_block".data) ∧
      ExtractToolCallS (some writeFileSnakeRegistry) c5BareText =
        some (c5Call, "inline_json".data) :=
  c5_extractor_strategy_priority writeFileSnakeRegistry
    c5FencedText c5BareText c5Obj c5Obj c5Call
    rfl rfl rfl rfl rfl rfl rfl rfl

/-! ### Claim C10: registry-less extraction of minimal objects. -/

def c10Text : List Char := ("\x7b\"name\":\"x\",\"arguments\":5\x7d").data

set_option maxRecDepth 1000000 in
/-- C10 (counterexample) -- the claim says every text whose
first-\x7b-to-last-\x7d substring parses as a JSON object with a non-empty
string `name` field is extracted successfully by a registry-less
extractor; at `\x7b"name":"x","arguments":5\x7d` the substring is such an
object, yet extraction reports "no tool-call found": decoding the bare
`ToolCall` errors because `arguments` is not an object, and the
`tool_call`-envelope decode yields an empty name. -/
theorem c10_registryless_extraction_counterexample :
    inlineJSONSub c10Text = some c10Text ∧
      (∃ q : ℚ, parseJson c10Text =
        some (.map [("name".data, .str "x".data), ("arguments".data, .float q)])) ∧
      ExtractToolCallS none c10Text = none :=
  ⟨rfl, ⟨_, rfl⟩, rfl⟩

theorem foldReq_keep (o : List (List Char × GoValue)) (tc : ToolCallV)
    (h : ∀ p ∈ o, eqFold p.1 "tool_call".data = false) :
    o.foldl
      (fun acc (kv : List Char × GoValue) =>
        match acc with
        | none => none
        | some tc =>
            if eqFold kv.1 "tool_call".data then
              match kv.2 with
              | .null => some tc
              | .map m => decodeToolCallV (.map m)
              | _ => none
            else some tc)
      (some tc) = some tc := by
  induction o with
  | nil => rfl
  | cons p rest ih =>
      simp only [List.foldl_cons, h p (List.mem_cons_self _ _), Bool.false_eq_true,
        if_false]
      exact ih fun q hq => h q (List.mem_cons_of_mem _ hq)

theorem foldTC_keep (o : List (List Char × GoValue)) (tc : ToolCallV)
    (h : ∀ p ∈ o, eqFold p.1 "name".data = false ∧ eqFold p.1 "arguments".data = false) :
    o.foldl
      (fun acc (kv : List Char × GoValue) =>
        match acc with
        | none => none
        | some tc =>
            if eqFold kv.1 "name".data then
              match kv.2 with
              | .str s => some { tc with name := s }
              | .null => some tc
              | _ => none
            else if eqFold kv.1 "arguments".data then
              match kv.2 with
              | .map m => some { tc with arguments := some m }
              | .null => some tc
              | _ => none
            else some tc)
      (some tc) = some tc := by
  induction o with
  | nil => rfl
  | cons p rest ih =>
      simp only [List.foldl_cons, (h p (List.mem_cons_self _ _)).1,
        (h p (List.mem_cons_self _ _)).2, Bool.false_eq_true, if_false]
      exact ih fun q hq => h q (List.mem_cons_of_mem _ hq)

theorem decodeToolCallRequest_no_envelope (o : List (List Char × GoValue))
    (h : ∀ p ∈ o, eqFold p.1 "tool_call".data = false) :
    decodeToolCallRequest (.map o) = some ⟨[], none⟩ := by
  unfold decodeToolCallRequest
  exact foldReq_keep o ⟨[], none⟩ h

theorem decodeToolCallV_single_name (o : List (List Char × GoValue))
    (kn n : List Char) (tc : ToolCallV)
    (hname : o.filter (fun p => eqFold p.1 "name".data) = [(kn, .str n)])
    (hargs : o.filter (fun p => eqFold p.1 "arguments".data) = []) :
    o.foldl
      (fun acc (kv : List Char × GoValue) =>
        match acc with
        | none => none
        | some tc =>
            if eqFold kv.1 "name".data then
              match kv.2 with
              | .str s => some { tc with name := s }
              | .null => some tc
              | _ => none
            else if eqFold kv.1 "arguments".data then
              match kv.2 with
              | .map m => some { tc with arguments := some m }
              | .null => some tc
              | _ => none
            else some tc)
      (some tc) = some { tc with name := n } := by
  induction o generalizing tc with
  | nil => simp at hname
  | cons p rest ih =>
      by_cases hp : eqFold p.1 "name".data = true
      · rw [List.filter_cons, if_pos hp] at hname
        simp only [List.cons.injEq] at hname
        obtain ⟨rfl, hrest⟩ := hname
        have hargs2 : rest.filter (fun p => eqFold p.1 "arguments".data) = [] := by
          rw [List.filter_cons] at hargs
          split at hargs
          · exact absurd hargs (by simp)
          · exact hargs
        simp only [List.foldl_cons, hp, if_true]
        have hkeep : ∀ q ∈ rest,
            eqFold q.1 "name".data = false ∧ eqFold q.1 "arguments".data = false := by
          intro q hq
          constructor
          · by_contra hc
            have : q ∈ rest.filter (fun p => eqFold p.1 "name".data) :=
              List.mem_filter.mpr ⟨hq, by simpa using hc⟩
            rw [hrest] at this
            simp at this
          · by_contra hc
            have : q ∈ rest.filter (fun p => eqFold p.1 "arguments".data) :=
              List.mem_filter.mpr ⟨hq, by simpa using hc⟩
            rw [hargs2] at this
            simp at this
        exact foldTC_keep rest _ hkeep
      · have hp2 : eqFold p.1 "name".data = false := by simpa using hp
        rw [List.filter_cons, if_neg (by simp [hp2])] at hname
        have hpargs : eqFold p.1 "arguments".data = false := by
          by_contra hc
          have hmem : p ∈ (p :: rest).filter (fun q => eqFold q.1 "arguments".data) :=
            List.mem_filter.mpr ⟨List.mem_cons_self _ _, by simpa using hc⟩
          rw [hargs] at hmem
          simp at hmem
        have hargs2 : rest.filter (fun p => eqFold p.1 "arguments".data) = [] := by
          rw [List.filter_cons, if_neg (by simp [hpargs])] at hargs
          exact hargs
        simp only [List.foldl_cons, hp2, hpargs, Bool.false_eq_true, if_false]
        exact ih tc hname hargs2

/-- C10 (amended) -- For a registry-less extractor: when neither the
whole-text recursive scan nor the fenced-block handler yields a
candidate, any text whose first-\x7b-to-last-\x7d substring parses as a JSON
object having exactly one name-matching field, bound to a non-empty
string, no arguments-matching field and no tool_call field, is extracted
as `(\x7bname := n, arguments := nil\x7d, "inline_json")` — Arguments `nil`
because the object has no `arguments` field at all. -/
theorem c10_registryless_inline_extraction
    (s J : List Char) (o : List (List Char × GoValue)) (kn n : List Char)
    (h1 : strategyOne none s = none)
    (h2 : jsonCodeBlockExtract s = none)
    (h3 : inlineJSONSub s = some J)
    (h4 : parseJson J = some (.map o))
    (hname : o.filter (fun p => eqFold p.1 "name".data) = [(kn, .str n)])
    (hargs : o.filter (fun p => eqFold p.1 "arguments".data) = [])
    (htc : o.filter (fun p => eqFold p.1 "tool_call".data) = [])
    (hn : n ≠ []) :
    ExtractToolCallS none s = some (⟨n, none⟩, "inline_json".data) := by
  have htc2 : ∀ p ∈ o, eqFold p.1 "tool_call".data = false := by
    intro p hp
    by_contra hc
    have : p ∈ o.filter (fun q => eqFold q.1 "tool_call".data) :=
      List.mem_filter.mpr ⟨hp, by simpa using hc⟩
    rw [htc] at this
    simp at this
  have hdec : decodeToolCallV (.map o) = some ⟨n, none⟩ := by
    unfold decodeToolCallV
    exact decodeToolCallV_single_name o kn n ⟨[], none⟩ hname hargs
  have hparse : parseToolCallJSON J = some ⟨n, none⟩ := by
    unfold parseToolCallJSON
    simp only [h4, decodeToolCallRequest_no_envelope o htc2, hdec]
    simp [hn]
  unfold ExtractToolCallS
  rw [h1]
  unfold defaultHandlers
  unfold tryHandlers
  simp only [h2]
  unfold tryHandlers inlineJSONExtract
  simp only [h3, hparse]

def c10WitnessText : List Char := ("Result: \x7b\"name\":\"x\"\x7d ok").data

set_option maxRecDepth 1000000 in
/-- Witness for the amended C10 at a concrete prose-wrapped object with
no `arguments` field. -/
theorem c10_registryless_inline_extraction_witness :
    ExtractToolCallS none c10WitnessText =
      some (⟨"x".data, none⟩, "inline_json".data) :=
  c10_registryless_inline_extraction c10WitnessText
    (("\x7b\"name\":\"x\"\x7d").data) [("name".data, .str "x".data)]
    "name".data "x".data rfl rfl rfl rfl rfl rfl rfl (by simp)

/-! ## The loop-condition evaluator (`evaluateLoopCondition`, chain
orchestrator source).

After template rendering the evaluator is a total function of the
rendered string: trim; literal `true`/`false` (case-insensitive) and the
empty string short-circuit; otherwise split at the first `==` (tried
before `!=`), space-trim the left side, space-trim the right side and
strip spaces/quotes from its ends; anything else is `false`.  It never
raises. -/

def cutsetTrim : List Char := [' ', dquoteC, squoteC]

def evaluateRendered (buf : List Char) : Bool :=
  let rendered := goTrimSpace buf
  let lower := goToLower rendered
  if lower = "true".data then true
  else if lower = "false".data ∨ rendered = [] then false
  else if goContains rendered "==".data then
    let parts := goSplitN2 rendered "==".data
    goTrimSpace parts.1 = goTrimCutset cutsetTrim (goTrimSpace parts.2)
  else if goContains rendered "!=".data then
    let parts := goSplitN2 rendered "!=".data
    goTrimSpace parts.1 ≠ goTrimCutset cutsetTrim (goTrimSpace parts.2)
  else false

/-! ### Splitting lemmas relating `goIndexOfFrom` to decompositions. -/

theorem goIndexOfFrom_decomp (sep s : List Char) (i : Nat)
    (h : goIndexOfFrom sep s = some i) :
    s = s.take i ++ sep ++ s.drop (i + sep.length) := by
  induction s generalizing i with
  | nil =>
      unfold goIndexOfFrom at h
      split at h
      case isTrue hsep =>
          injection h with h2
          subst h2
          simp [hsep]
      case isFalse hsep => exact absurd h (by simp)
  | cons c rest ih =>
      unfold goIndexOfFrom at h
      split at h
      case isTrue hp =>
          injection h with h2
          subst h2
          obtain ⟨t, ht⟩ := List.isPrefixOf_iff_prefix.mp hp
          rw [List.take_zero, List.nil_append, Nat.zero_add, ← ht, List.drop_left]
      case isFalse hp =>
          cases hrec : goIndexOfFrom sep rest with
          | none => rw [hrec] at h; exact absurd h (by simp)
          | some j =>
              rw [hrec] at h
              simp only [Option.map_some', Option.some.injEq] at h
              subst h
              have hrest := ih j hrec
              rw [List.take_succ_cons,
                show j + 1 + sep.length = (j + sep.length) + 1 from by omega,
                List.drop_succ_cons]
              exact congrArg (List.cons c) hrest

theorem goIndexOfFrom_min (sep s : List Char) (i : Nat)
    (h : goIndexOfFrom sep s = some i) :
    ∀ l r : List Char, s = l ++ sep ++ r → i ≤ l.length := by
  induction s generalizing i with
  | nil =>
      intro l r hd
      unfold goIndexOfFrom at h
      split at h
      · injection h with h2
        omega
      · exact absurd h (by simp)
  | cons c rest ih =>
      intro l r hd
      unfold goIndexOfFrom at h
      split at h
      case isTrue hp =>
          injection h with h2
          omega
      case isFalse hp =>
          cases l with
          | nil =>
              exfalso
              apply hp
              rw [List.isPrefixOf_iff_prefix]
              exact ⟨r, by simpa using hd.symm⟩
          | cons c2 l2 =>
              cases hrec : goIndexOfFrom sep rest with
              | none => rw [hrec] at h; exact absurd h (by simp)
              | some j =>
                  rw [hrec] at h
                  simp only [Option.map_some', Option.some.injEq] at h
                  subst h
                  have hd2 : rest = l2 ++ sep ++ r := by
                    simpa using congrArg List.tail hd
                  have := ih j hrec l2 r hd2
                  simp only [List.length_cons]
                  omega

theorem goContains_iff_decomp (s sep : List Char) (hne : sep ≠ []) :
    goContains s sep = true ↔ ∃ l r, s = l ++ sep ++ r := by
  constructor
  · intro h
    unfold goContains at h
    cases hidx : goIndexOfFrom sep s with
    | none => rw [hidx] at h; simp at h
    | some i =>
        exact ⟨s.take i, s.drop (i + sep.length), goIndexOfFrom_decomp sep s i hidx⟩
  · rintro ⟨l, r, rfl⟩
    unfold goContains
    rw [List.append_assoc]
    induction l with
    | nil =>
        cases hsep2 : sep with
        | nil => exact absurd hsep2 hne
        | cons c rest =>
            subst hsep2
            simp only [List.nil_append, List.cons_append]
            unfold goIndexOfFrom
            rw [if_pos]
            · rfl
            · rw [List.isPrefixOf_iff_prefix]
              exact ⟨r, by simp⟩
    | cons c l2 ih =>
        simp only [List.cons_append]
        unfold goIndexOfFrom
        split
        · rfl
        · simpa using ih

/-- The first-occurrence decomposition is the unique length-minimal one. -/
theorem goSplitN2_eq_of_minimal (s sep l r : List Char) (hne : sep ≠ [])
    (hd : s = l ++ sep ++ r)
    (hmin : ∀ l2 r2 : List Char, s = l2 ++ sep ++ r2 → l.length ≤ l2.length) :
    goSplitN2 s sep = (l, r) := by
  have hcontains : goContains s sep = true :=
    (goContains_iff_decomp s sep hne).mpr ⟨l, r, hd⟩
  unfold goContains at hcontains
  cases hidx : goIndexOfFrom sep s with
  | none => rw [hidx] at hcontains; simp at hcontains
  | some i =>
      have hle : i ≤ l.length := goIndexOfFrom_min sep s i hidx l r hd
      have hge : l.length ≤ i := by
        have hdec := goIndexOfFrom_decomp sep s i hidx
        have h2 := hmin (s.take i) (s.drop (i + sep.length)) hdec
        rw [List.length_take] at h2
        omega
      have hi : i = l.length := by omega
      subst hi
      subst hd
      simp only [goSplitN2, hidx]
      have h1 : (l ++ (sep ++ r)).take l.length = l := List.take_left l (sep ++ r)
      have h2 : (l ++ (sep ++ r)).drop (l.length + sep.length) = r := by
        rw [← List.append_assoc, ← List.length_append]
        exact List.drop_left _ _
      rw [List.append_assoc, h1, h2]

theorem goToLower_append (a b : List Char) :
    goToLower (a ++ b) = goToLower a ++ goToLower b := by
  simp [goToLower]

theorem no_eq_char_no_decomp (s sep w : List Char)
    (hlow : goToLower s = w)
    (hsep : '=' ∈ sep)
    (hw : '=' ∉ w) :
    ¬∃ l r, s = l ++ sep ++ r := by
  rintro ⟨l, r, rfl⟩
  apply hw
  rw [← hlow, goToLower_append, goToLower_append]
  have : goToLowerChar '=' = '=' := by decide
  have hmem : '=' ∈ goToLower sep := by
    rw [← this]
    exact List.mem_map_of_mem goToLowerChar hsep
  simp [hmem]

/-- C7 -- Loop-condition evaluation, characterized: the evaluator returns
`true` exactly when the (space-trimmed) rendered string is the literal
`true` case-insensitively, or decomposes at its first `==` (the
length-minimal decomposition) into sides that agree after space-trimming
the left and space/quote-stripping the right, or — containing no `==` at
all (`==` takes precedence over `!=`) — decomposes at its first `!=`
into sides that differ under the same stripping; every other string,
including the empty string and the literal `false`, evaluates to `false`
(the function is total — it cannot raise). -/
theorem c7_loop_condition_evaluator (buf : List Char) :
    evaluateRendered buf = true ↔
      (goToLower (goTrimSpace buf) = "true".data ∨
        (∃ l r : List Char, goTrimSpace buf = l ++ "==".data ++ r ∧
          (∀ l2 r2 : List Char, goTrimSpace buf = l2 ++ "==".data ++ r2 →
            l.length ≤ l2.length) ∧
          goTrimSpace l = goTrimCutset cutsetTrim (goTrimSpace r)) ∨
        (goContains (goTrimSpace buf) "==".data = false ∧
          ∃ l r : List Char, goTrimSpace buf = l ++ "!=".data ++ r ∧
            (∀ l2 r2 : List Char, goTrimSpace buf = l2 ++ "!=".data ++ r2 →
              l.length ≤ l2.length) ∧
            goTrimSpace l ≠ goTrimCutset cutsetTrim (goTrimSpace r))) := by
  unfold evaluateRendered
  set rendered := goTrimSpace buf with hrend
  by_cases htrue : goToLower rendered = "true".data
  · simp [htrue]
  · rw [if_neg htrue]
    by_cases hfalse : goToLower rendered = "false".data ∨ rendered = []
    · rw [if_pos hfalse]
      simp only [Bool.false_eq_true, false_iff]
      rintro (h | ⟨l, r, hd, -, -⟩ | ⟨-, l, r, hd, -, -⟩)
      · exact htrue h
      · rcases hfalse with hf | hf
        · exact no_eq_char_no_decomp rendered "==".data _ hf (by decide)
            (by decide) ⟨l, r, hd⟩
        · rw [hf] at hd
          have := congrArg List.length hd
          simp at this
          omega
      · rcases hfalse with hf | hf
        · exact no_eq_char_no_decomp rendered "!=".data _ hf (by decide)
            (by decide) ⟨l, r, hd⟩
        · rw [hf] at hd
          have := congrArg List.length hd
          simp at this
          omega
    · rw [if_neg hfalse]
      by_cases heq : goContains rendered "==".data = true
      · rw [if_pos heq]
        have hdecomp := (goContains_iff_decomp rendered "==".data (by decide)).mp heq
        constructor
        · intro hcode
          refine Or.inr (Or.inl ?_)
          cases hidx : goIndexOfFrom "==".data rendered with
          | none =>
              unfold goContains at heq
              rw [hidx] at heq
              simp at heq
          | some i =>
              refine ⟨rendered.take i, rendered.drop (i + 2), ?_, ?_, ?_⟩
              · exact goIndexOfFrom_decomp "==".data rendered i hidx
              · intro l2 r2 hd2
                have := goIndexOfFrom_min "==".data rendered i hidx l2 r2 hd2
                simp only [List.length_take]
                have hlen : i ≤ rendered.length := by
                  have := goIndexOfFrom_decomp "==".data rendered i hidx
                  have hl := congrArg List.length this
                  simp at hl
                  omega
                omega
              · have hsplit : goSplitN2 rendered "==".data =
                    (rendered.take i, rendered.drop (i + 2)) := by
                  simp only [goSplitN2, hidx]
                  rfl
                rw [hsplit] at hcode
                exact of_decide_eq_true hcode
        · rintro (h | ⟨l, r, hd, hmin, hside⟩ | ⟨hno, -⟩)
          · exact absurd h htrue
          · have := goSplitN2_eq_of_minimal rendered "==".data l r (by decide) hd hmin
            rw [this]
            exact decide_eq_true hside
          · rw [heq] at hno
            simp at hno
      · rw [if_neg heq]
        have hno : goContains rendered "==".data = false := by
          simpa using heq
        by_cases hne : goContains rendered "!=".data = true
        · rw [if_pos hne]
          constructor
          · intro hcode
            refine Or.inr (Or.inr ⟨hno, ?_⟩)
            cases hidx : goIndexOfFrom "!=".data rendered with
            | none =>
                unfold goContains at hne
                rw [hidx] at hne
                simp at hne
            | some i =>
                refine ⟨rendered.take i, rendered.drop (i + 2), ?_, ?_, ?_⟩
                · exact goIndexOfFrom_decomp "!=".data rendered i hidx
                · intro l2 r2 hd2
                  have := goIndexOfFrom_min "!=".data rendered i hidx l2 r2 hd2
                  simp only [List.length_take]
                  omega
                · have hsplit : goSplitN2 rendered "!=".data =
                      (rendered.take i, rendered.drop (i + 2)) := by
                    simp only [goSplitN2, hidx]
                    rfl
                  rw [hsplit] at hcode
                  exact of_decide_eq_true hcode
          · rintro (h | ⟨l, r, hd, -, -⟩ | ⟨-, l, r, hd, hmin, hside⟩)
            · exact absurd h htrue
            · rw [(goContains_iff_decomp rendered "==".data (by decide)).mpr
                ⟨l, r, hd⟩] at hno
              simp at hno
            · have := goSplitN2_eq_of_minimal rendered "!=".data l r (by decide) hd hmin
              rw [this]
              exact decide_eq_true hside
        · rw [if_neg hne]
          simp only [Bool.false_eq_true, false_iff]
          rintro (h | ⟨l, r, hd, -, -⟩ | ⟨-, l, r, hd, -, -⟩)
          · exact htrue h
          · rw [(goContains_iff_decomp rendered "==".data (by decide)).mpr
              ⟨l, r, hd⟩] at hno
            simp at hno
          · exact hne ((goContains_iff_decomp rendered "!=".data (by decide)).mpr
              ⟨l, r, hd⟩)

/-! ## `json.Marshal` (the fragment the chain orchestrator emits).

Map keys are emitted in sorted (byte) order, as Go does; `<`, `>`, `&`
are escaped (`SetEscapeHTML` default).  Floats are marshalled exactly for
values with a finite decimal expansion of at most 17 fractional digits —
the only numbers these chains produce; Go's shortest-roundtrip float
formatting beyond that fragment is not modelled. -/

def natToDec (n : Nat) : List Char :=
  (Nat.toDigits 10 n)

def intToDec (n : Int) : List Char :=
  if n < 0 then '-' :: natToDec n.natAbs else natToDec n.natAbs

def hexDigitChar (n : Nat) : Char :=
  if n < 10 then Char.ofNat ('0'.toNat + n) else Char.ofNat ('a'.toNat + n - 10)

def escapeJsonChar (c : Char) : List Char :=
  if c = dquoteC then ['\\', dquoteC]
  else if c = '\\' then ['\\', '\\']
  else if c = '\n' then ['\\', 'n']
  else if c = '\r' then ['\\', 'r']
  else if c = '\t' then ['\\', 't']
  else if c = '<' ∨ c = '>' ∨ c = '&' ∨ c.toNat < 32 then
    '\\' :: 'u' :: [hexDigitChar (c.toNat / 4096 % 16), hexDigitChar (c.toNat / 256 % 16),
      hexDigitChar (c.toNat / 16 % 16), hexDigitChar (c.toNat % 16)]
  else [c]

def marshalStr (s : List Char) : List Char :=
  dquoteC :: (s.flatMap escapeJsonChar) ++ [dquoteC]

/-- Decimal rendering of a rational with denominator dividing `10^k`,
`k ≤ 17`; other rationals (outside the modelled fragment) render as their
integer truncation. -/
def floatToDec (q : ℚ) : List Char :=
  if q.den = 1 then intToDec q.num
  else
    match (List.range 18).find? (fun k => q.den ∣ 10 ^ k) with
    | some k =>
        let scaled : Int := q.num * ((10 ^ k : Nat) / q.den)
        let sign : List Char := if scaled < 0 then ['-'] else []
        let digits := natToDec scaled.natAbs
        let padded := if digits.length ≤ k then
            List.replicate (k + 1 - digits.length) '0' ++ digits else digits
        sign ++ padded.take (padded.length - k) ++ '.' ::
          (padded.drop (padded.length - k)).reverse.dropWhile (· = '0') |>.reverse
    | none => intToDec (q.num / (q.den : Int))

def lexLt (a b : List Char) : Bool :=
  match a, b with
  | [], [] => false
  | [], _ :: _ => true
  | _ :: _, [] => false
  | c :: as_, d :: bs =>
      if c.toNat < d.toNat then true
      else if d.toNat < c.toNat then false
      else lexLt as_ bs

def insertByKey (p : List Char × GoValue) :
    List (List Char × GoValue) → List (List Char × GoValue)
  | [] => [p]
  | q :: rest => if lexLt p.1 q.1 then p :: q :: rest else q :: insertByKey p rest

/-- Sort map entries by key (Go sorts map keys before marshalling). -/
def sortFields : List (List Char × GoValue) → List (List Char × GoValue)
  | [] => []
  | p :: rest => insertByKey p (sortFields rest)

def joinComma : List (List Char) → List Char
  | [] => []
  | [x] => x
  | x :: y :: rest => x ++ ',' :: joinComma (y :: rest)

mutual

def marshalGoValueF : Nat → GoValue → List Char
  | 0, _ => []
  | _ + 1, .str s => marshalStr s
  | _ + 1, .int n => intToDec n
  | _ + 1, .float q => floatToDec q
  | _ + 1, .bool true => "true".data
  | _ + 1, .bool false => "false".data
  | _ + 1, .null => "null".data
  | fuel + 1, .list xs => '[' :: joinComma (marshalListF fuel xs) ++ [']']
  | fuel + 1, .map m =>
      lbraceC :: joinComma (marshalFieldsF fuel (sortFields m)) ++ [rbraceC]

def marshalListF : Nat → List GoValue → List (List Char)
  | 0, _ => []
  | _ + 1, [] => []
  | fuel + 1, v :: rest => marshalGoValueF fuel v :: marshalListF fuel rest

def marshalFieldsF : Nat → List (List Char × GoValue) → List (List Char)
  | 0, _ => []
  | _ + 1, [] => []
  | fuel + 1, (k, v) :: rest =>
      (marshalStr k ++ ':' :: marshalGoValueF fuel v) :: marshalFieldsF fuel rest

end

mutual

def goValueSize : GoValue → Nat
  | .list xs => goValueSizeList xs + 1
  | .map m => goValueSizeFields m + 1
  | _ => 1

def goValueSizeList : List GoValue → Nat
  | [] => 1
  | v :: rest => goValueSize v + goValueSizeList rest + 1

def goValueSizeFields : List (List Char × GoValue) → Nat
  | [] => 1
  | (_, v) :: rest => goValueSize v + goValueSizeFields rest + 1

end

/-- `json.Marshal` of one value; the fuel (a structural-recursion bound)
is never exhausted on values whose size fits it. -/
def marshalGoValue (v : GoValue) : List Char :=
  marshalGoValueF (2 * goValueSize v + 2) v

/-- `json.Marshal` of a `types.ToolCall` (struct field order `name`,
`arguments`; a nil arguments map marshals to `null`). -/
def marshalToolCall (tc : ToolCallV) : List Char :=
  lbraceC :: (marshalStr "name".data ++ ':' :: marshalStr tc.name ++
    ',' :: marshalStr "arguments".data ++ ':' ::
    (match tc.arguments with
     | some m => marshalGoValue (.map m)
     | none => "null".data)) ++ [rbraceC]

/-! ## A model of Go templates (the fragment these chains use).

Templates made of literal text and field actions `\x7b\x7b.a.b\x7d\x7d` (with
optional spaces inside the action) are modelled; any other action is a
parse error.  Field resolution follows `text/template` on
`map[string]interface\x7b\x7d` data: a missing key yields the nil value, a
field access on nil or on a non-map is an execution error, and printing
nil yields `<no value>`.  `html/template`'s contextual escaping is not
modelled (no rendered value in this development contains characters it
would escape). -/

inductive TmplChunk where
  | lit (s : List Char)
  | field (path : List (List Char))
deriving Repr

def isIdentChar (c : Char) : Bool :=
  ('a' ≤ c ∧ c ≤ 'z') || ('A' ≤ c ∧ c ≤ 'Z') || ('0' ≤ c ∧ c ≤ '9') || c = '_'

def tmplOpen : List Char := [lbraceC, lbraceC]

def tmplClose : List Char := [rbraceC, rbraceC]

def parsePathAux : Nat → List Char → List (List Char) →
    Option (List (List Char) × List Char)
  | 0, _, _ => none
  | fuel + 1, cs, acc =>
      let comp := cs.takeWhile isIdentChar
      let rest := cs.dropWhile isIdentChar
      if comp = [] then some (acc, cs)
      else
        match rest with
        | '.' :: rest2 => parsePathAux fuel rest2 (acc ++ [comp])
        | _ => some (acc ++ [comp], rest)

/-- Parse one `\x7b\x7b ... \x7d\x7d` action body (after the opening braces). -/
def parseAction (cs : List Char) : Option (List (List Char) × List Char) :=
  let cs1 := cs.dropWhile (· = ' ')
  match cs1 with
  | '.' :: cs2 =>
      match parsePathAux (cs2.length + 1) cs2 [] with
      | some (path, rest) =>
          let rest2 := rest.dropWhile (· = ' ')
          if tmplClose.isPrefixOf rest2 then some (path, rest2.drop 2) else none
      | none => none
  | _ => none

def parseTmplAux : Nat → List Char → Option (List TmplChunk)
  | 0, _ => none
  | fuel + 1, cs =>
      match goIndexOfFrom tmplOpen cs with
      | none => some (if cs = [] then [] else [.lit cs])
      | some i =>
          let lit := cs.take i
          match parseAction (cs.drop (i + 2)) with
          | none => none
          | some (path, rest) =>
              match parseTmplAux fuel rest with
              | none => none
              | some chunks =>
                  some ((if lit = [] then [] else [.lit lit]) ++ .field path :: chunks)

def parseTmpl (t : List Char) : Option (List TmplChunk) :=
  parseTmplAux (t.length + 1) t

/-- Field-path resolution over `map[string]interface\x7b\x7d` data. -/
def resolvePath (v : GoValue) : List (List Char) → Except (List Char) GoValue
  | [] => .ok v
  | k :: rest =>
      match v with
      | .map m =>
          match assocGet m k with
          | some v2 => resolvePath v2 rest
          | none => resolvePath .null rest
      | .null => .error ("nil pointer evaluating field ".data ++ k)
      | _ => .error ("cannot evaluate field ".data ++ k)

/-- Printing a resolved value (`text/template`'s `%v` on our fragment). -/
def printGoValue : GoValue → List Char
  | .str s => s
  | .int n => intToDec n
  | .float q => floatToDec q
  | .bool true => "true".data
  | .bool false => "false".data
  | .null => "<no value>".data
  | .list _ => "<unmodelled aggregate>".data
  | .map _ => "<unmodelled aggregate>".data

def renderChunks (ctx : GoValue) : List TmplChunk → Except (List Char) (List Char)
  | [] => .ok []
  | .lit s :: rest =>
      match renderChunks ctx rest with
      | .ok out => .ok (s ++ out)
      | .error e => .error e
  | .field path :: rest =>
      match resolvePath ctx path with
      | .error e => .error e
      | .ok v =>
          match renderChunks ctx rest with
          | .ok out => .ok (printGoValue v ++ out)
          | .error e => .error e

/-- `template.Parse` + `Execute` against a string-keyed context. -/
def renderTemplate (t : List Char) (ctx : List (List Char × GoValue)) :
    Except (List Char) (List Char) :=
  match parseTmpl t with
  | none => .error "template parse error".data
  | some chunks => renderChunks (.map ctx) chunks

/-- `evaluateLoopCondition`: render the condition template, then interpret
the rendered string; parse/execute errors are returned to the caller
(which logs and keeps looping). -/
def evaluateLoopCondition (cond : List Char) (ctx : List (List Char × GoValue)) :
    Except (List Char) Bool :=
  match renderTemplate cond ctx with
  | .error e => .error e
  | .ok buf => .ok (evaluateRendered buf)

/-! ## The chain orchestrator (`ExecuteChain`, the current version in the
roles package).

External collaborators are oracle fields of `ChainEnv`: `executeRole`
stands for `ExecuteRole` (prompt rendering plus the HTTP model call — the
chain passes it the accumulated role input and uses only the returned raw
text: the returned error is **discarded** at the call site, `rawOutput, _
:= ExecuteRole(...)`), and `toolRun` stands for the side-effecting tool
implementations behind the registry.  Everything else, including the
extractor, validator, executor, Gemini-envelope probing, legacy file
fallback and loop-condition evaluation, is the embedded code above.  The
model additionally counts role invocations (instrumentation only). -/

def optTraverse {α : Type} (f : GoValue → Option α) : List GoValue → Option (List α)
  | [] => some []
  | v :: rest =>
      match f v with
      | none => none
      | some a =>
          match optTraverse f rest with
          | none => none
          | some as_ => some (a :: as_)

/-- `json.Unmarshal` into the local `geminiPart` struct. -/
def decodeGeminiPart (v : GoValue) : Option (List Char) :=
  match v with
  | .null => some []
  | .map fields =>
      fields.foldl
        (fun acc kv =>
          match acc with
          | none => none
          | some t =>
              if eqFold kv.1 "text".data then
                match kv.2 with
                | .str s => some s
                | .null => some t
                | _ => none
              else some t)
        (some [])
  | _ => none

def decodeGeminiContent (v : GoValue) : Option (List (List Char)) :=
  match v with
  | .null => some []
  | .map fields =>
      fields.foldl
        (fun acc kv =>
          match acc with
          | none => none
          | some parts =>
              if eqFold kv.1 "parts".data then
                match kv.2 with
                | .list xs => optTraverse decodeGeminiPart xs
                | .null => some parts
                | _ => none
              else some parts)
        (some [])
  | _ => none

def decodeGeminiCandidate (v : GoValue) : Option (List (List Char)) :=
  match v with
  | .null => some []
  | .map fields =>
      fields.foldl
        (fun acc kv =>
          match acc with
          | none => none
          | some parts =>
              if eqFold kv.1 "content".data then
                match kv.2 with
                | .null => some parts
                | c => decodeGeminiContent c
              else some parts)
        (some [])
  | _ => none

def decodeGemini (v : GoValue) : Option (List (List (List Char))) :=
  match v with
  | .null => some []
  | .map fields =>
      fields.foldl
        (fun acc kv =>
          match acc with
          | none => none
          | some cands =>
              if eqFold kv.1 "candidates".data then
                match kv.2 with
                | .list xs => optTraverse decodeGeminiCandidate xs
                | .null => some cands
                | _ => none
              else some cands)
        (some [])
  | _ => none

/-- The chain's Gemini-envelope probe: when the raw output unmarshals as a
Gemini response with a first candidate holding a first part, use that
part's text; otherwise the raw output itself. -/
def geminiToolCallText (raw : List Char) : List Char :=
  match parseJson raw with
  | none => raw
  | some v =>
      match decodeGemini v with
      | none => raw
      | some cands =>
          match cands with
          | (t :: _) :: _ => t
          | _ => raw

/-- `json.Unmarshal` into the legacy `\x7bfile_path, content\x7d` struct. -/
def decodeFileObj (v : GoValue) : Option (List Char × List Char) :=
  match v with
  | .null => some ([], [])
  | .map fields =>
      fields.foldl
        (fun acc kv =>
          match acc with
          | none => none
          | some (fp, ct) =>
              if eqFold kv.1 "file_path".data then
                match kv.2 with
                | .str s => some (s, ct)
                | .null => some (fp, ct)
                | _ => none
              else if eqFold kv.1 "content".data then
                match kv.2 with
                | .str s => some (fp, s)
                | .null => some (fp, ct)
                | _ => none
              else some (fp, ct))
        (some ([], []))
  | _ => none

structure RoleS where
  provider : List Char
  model : List Char
  prompt : List Char

structure ChainRoleS where
  name : List Char
  role : List Char
  input : List (List Char × GoValue)
  outputKey : List Char
  loop : Bool
  loopCount : Int
  loopCondition : List Char

structure ChainEnv where
  roles : List (List Char × RoleS)
  executeRole : Nat → RoleS → List (List Char × GoValue) →
    List Char × Option (List Char)
  toolRun : List Char → Option (List (List Char × GoValue)) →
    Except (List Char) GoValue

structure ChainState where
  context : List (List Char × GoValue)
  lastToolResponse : Option GoValue
  callIdx : Nat
  invocations : Nat

inductive ChainErr where
  | roleNotFound (key : List Char)
  | inputTemplateParse (key : List Char)
  | inputTemplateExec (key : List Char)
deriving Repr, DecidableEq

/-- Go map delete. -/
def assocDel {α : Type} (m : List (List Char × α)) (k : List Char) :
    List (List Char × α) :=
  m.filter (fun p => p.1 ≠ k)

/-- `roleKey := chainRole.Role; if roleKey == "" \x7b roleKey = chainRole.Name \x7d`. -/
def chainRoleKey (step : ChainRoleS) : List Char :=
  if step.role = [] then step.name else step.role

/-- The per-step role-input map: template-looking string values (prefix
`\x7b\x7b`, suffix `\x7d\x7d`) are rendered against the context, aborting the whole
chain on parse/execute failure; everything else passes through. -/
def buildRoleInput (roleKey : List Char) (ctx : List (List Char × GoValue)) :
    List (List Char × GoValue) → Except ChainErr (List (List Char × GoValue))
  | [] => .ok []
  | (k, v) :: rest =>
      match buildRoleInput roleKey ctx rest with
      | .error e => .error e
      | .ok acc =>
          match v with
          | .str s =>
              if tmplOpen.isPrefixOf s ∧ tmplClose.isSuffixOf s then
                match parseTmpl s with
                | none => .error (.inputTemplateParse roleKey)
                | some chunks =>
                    match renderChunks (.map ctx) chunks with
                    | .error _ => .error (.inputTemplateExec roleKey)
                    | .ok rendered => .ok (assocSet acc k (.str rendered))
              else .ok (assocSet acc k (.str s))
          | _ => .ok (assocSet acc k v)

/-- Abbreviated renderings of the executor's error strings (the chain
stores `err.Error()` under `exec_error`; the exact text is not load-
bearing for any claim). -/
def execErrMsg : ExecErr → List Char
  | .validation (.toolNotFound n) =>
      "tool \x27".data ++ n ++ "\x27 not found in registry".data
  | .validation (.missingArg t a) =>
      "missing required argument \x27".data ++ a ++ "\x27 for tool \x27".data ++
        t ++ "\x27".data
  | .validation (.wrongType t a ty) =>
      "argument \x27".data ++ a ++ "\x27 for tool \x27".data ++ t ++
        "\x27 must be ".data ++ ty
  | .implNotFound t => "tool implementation not found: ".data ++ t
  | .implErr m => m
  | .timeout t => "tool ".data ++ t ++ " timed out".data

/-- Output-key recording and the loop-condition decision, shared by both
the tool-call and the fallback path of one iteration. -/
def finishIter (step : ChainRoleS) (st : ChainState)
    (ctx : List (List Char × GoValue)) (ltr : Option GoValue)
    (output : List Char) : ChainState × Bool :=
  let ctx2 :=
    if step.outputKey ≠ [] then
      let stored : List Char :=
        match ltr with
        | some (.map m) =>
            match assocGet m "content".data with
            | some (.str c) => if c ≠ [] then c else output
            | some _ => output
            | none => output
        | _ => output
      assocSet ctx step.outputKey (.str stored)
    else ctx
  let st2 : ChainState := ⟨ctx2, ltr, st.callIdx + 1, st.invocations + 1⟩
  if step.loopCondition ≠ [] then
    match evaluateLoopCondition step.loopCondition ctx2 with
    | .error _ => (st2, false)
    | .ok b => (st2, b)
  else (st2, false)

/-- One iteration of one chain step (the body of the inner `for i` loop
of `ExecuteChain`). -/
def chainIter (env : ChainEnv) (step : ChainRoleS) (st : ChainState) :
    Except ChainErr (ChainState × Bool) :=
  match assocGet env.roles (chainRoleKey step) with
  | none => .error (.roleNotFound (chainRoleKey step))
  | some roleDef =>
      match buildRoleInput (chainRoleKey step) st.context step.input with
      | .error e => .error e
      | .ok ri0 =>
          let ri1 := assocSet ri0 "lastToolResponse".data
            (st.lastToolResponse.getD .null)
          let ri2 := assocSet ri1 "lastToolResponse_json".data
            (.str (match st.lastToolResponse with
                   | some v => marshalGoValue v
                   | none => []))
          let rawOutput := (env.executeRole st.callIdx roleDef ri2).1
          let toolCallText := geminiToolCallText rawOutput
          match ExtractToolCallS (some defaultRegistry) toolCallText with
          | some (tc, _) =>
              let output := marshalToolCall tc
              let ctx1 := assocSet st.context "tool_call".data
                (.map [("name".data, .str tc.name),
                       ("arguments".data, .map (tc.arguments.getD []))])
              let execRes := (ExecuteS ⟨defaultRegistry, 1, false⟩
                (fun _ => ⟨env.toolRun tc.name tc.arguments, false⟩)
                ⟨tc.name, tc.arguments⟩).1
              let ltr : GoValue :=
                match execRes with
                | .ok v => v
                | .error e =>
                    .map [("error".data, .str "tool execution failed".data),
                          ("tool".data, .str tc.name),
                          ("exec_error".data, .str (execErrMsg e))]
              .ok (finishIter step st ctx1 (some ltr) output)
          | none =>
              let output :=
                match inlineJSONSub toolCallText with
                | some js => js
                | none => toolCallText
              let fb : Option (List Char × List Char) :=
                match parseJson output with
                | some v =>
                    match decodeFileObj v with
                    | some (fp, ct) => if fp ≠ [] then some (fp, ct) else none
                    | none => none
                | none => none
              match fb with
              | some (fp, ct) =>
                  -- tools.WriteFile runs here for its side effect; the
                  -- code discards its result (`_, _ =`).
                  .ok (finishIter step st st.context
                    (some (.map [("file_path".data, .str fp),
                                 ("content".data, .str ct)])) output)
              | none =>
                  .ok (finishIter step st
                    (assocDel st.context "tool_call".data) none output)

/-- `loopCount` for a step: `LoopCount` when positive, the fixed internal
maximum 100 when only `LoopCondition` is set, else 1. -/
def stepLoopCount (step : ChainRoleS) : Nat :=
  if step.loop then
    if step.loopCount > 0 then step.loopCount.toNat
    else if step.loopCondition ≠ [] then 100
    else 1
  else 1

def runStepIters (env : ChainEnv) (step : ChainRoleS) :
    Nat → ChainState → Except ChainErr ChainState
  | 0, st => .ok st
  | n + 1, st =>
      match chainIter env step st with
      | .error e => .error e
      | .ok (st2, brk) => if brk then .ok st2 else runStepIters env step n st2

def runSteps (env : ChainEnv) :
    List ChainRoleS → ChainState → Except ChainErr ChainState
  | [], st => .ok st
  | step :: rest, st =>
      match runStepIters env step (stepLoopCount step) st with
      | .error e => .error e
      | .ok st2 => runSteps env rest st2

/-- `ExecuteChain`: walk the steps, threading the context; returns the
final context plus (instrumentation) the number of role invocations. -/
def ExecuteChainS (env : ChainEnv) (steps : List ChainRoleS)
    (initialInput : List (List Char × GoValue)) :
    Except ChainErr (List (List Char × GoValue) × Nat) :=
  match runSteps env steps ⟨initialInput, none, 0, 0⟩ with
  | .error e => .error e
  | .ok st => .ok (st.context, st.invocations)

/-! ### Claim C4: what aborts a chain. -/

theorem stepLoopCount_pos (step : ChainRoleS) : 0 < stepLoopCount step := by
  unfold stepLoopCount
  split
  · split
    · omega
    · split <;> omega
  · omega

theorem chainIter_roleNotFound (env : ChainEnv) (step : ChainRoleS)
    (st : ChainState) (h : assocGet env.roles (chainRoleKey step) = none) :
    chainIter env step st = .error (.roleNotFound (chainRoleKey step)) := by
  unfold chainIter
  simp only [h]

theorem chainIter_templateError (env : ChainEnv) (step : ChainRoleS)
    (st : ChainState) (roleDef : RoleS) (e : ChainErr)
    (h : assocGet env.roles (chainRoleKey step) = some roleDef)
    (hb : buildRoleInput (chainRoleKey step) st.context step.input = .error e) :
    chainIter env step st = .error e := by
  unfold chainIter
  simp only [h, hb]

def dropRoleErr (env : ChainEnv) : ChainEnv :=
  { env with executeRole := fun i r inp => ((env.executeRole i r inp).1, none) }

theorem chainIter_error_component_irrelevant (env : ChainEnv)
    (step : ChainRoleS) (st : ChainState) :
    chainIter (dropRoleErr env) step st = chainIter env step st := rfl

theorem runStepIters_error_component_irrelevant (env : ChainEnv)
    (step : ChainRoleS) (n : Nat) (st : ChainState) :
    runStepIters (dropRoleErr env) step n st = runStepIters env step n st := by
  induction n generalizing st with
  | zero => rfl
  | succ n ih =>
      unfold runStepIters
      rw [chainIter_error_component_irrelevant]
      cases chainIter env step st with
      | error e => rfl
      | ok p =>
          obtain ⟨st2, brk⟩ := p
          dsimp only
          cases brk with
          | true => rfl
          | false => exact ih st2

theorem runSteps_error_component_irrelevant (env : ChainEnv)
    (steps : List ChainRoleS) (st : ChainState) :
    runSteps (dropRoleErr env) steps st = runSteps env steps st := by
  induction steps generalizing st with
  | nil => rfl
  | cons step rest ih =>
      unfold runSteps
      rw [runStepIters_error_component_irrelevant]
      cases runStepIters env step (stepLoopCount step) st with
      | error e => rfl
      | ok st2 => exact ih st2

/-- C4 (amended) -- What aborts a chain: an unknown role reference aborts
it with a role-not-found error before any invocation; an input-template
parse/render failure aborts it; but a **role invocation error does not**:
`ExecuteChain` discards `ExecuteRole`'s error (`rawOutput, _ :=
ExecuteRole(...)`), so the chain's outcome is invariant under the error
component of the role-invocation collaborator. -/
theorem c4_chain_abort_conditions :
    (∀ (env : ChainEnv) (step : ChainRoleS) (rest : List ChainRoleS)
        (init : List (List Char × GoValue)),
        assocGet env.roles (chainRoleKey step) = none →
        ExecuteChainS env (step :: rest) init =
          .error (.roleNotFound (chainRoleKey step))) ∧
    (∀ (env : ChainEnv) (step : ChainRoleS) (rest : List ChainRoleS)
        (init : List (List Char × GoValue)) (roleDef : RoleS) (e : ChainErr),
        assocGet env.roles (chainRoleKey step) = some roleDef →
        buildRoleInput (chainRoleKey step) init step.input = .error e →
        ExecuteChainS env (step :: rest) init = .error e) ∧
    (∀ (env : ChainEnv) (steps : List ChainRoleS)
        (init : List (List Char × GoValue)),
        ExecuteChainS (dropRoleErr env) steps init = ExecuteChainS env steps init) := by
  have hfirst : ∀ (env : ChainEnv) (step : ChainRoleS) (st : ChainState)
      (e : ChainErr), chainIter env step st = .error e →
      runStepIters env step (stepLoopCount step) st = .error e := by
    intro env step st e h
    obtain ⟨n, hn⟩ : ∃ n, stepLoopCount step = n + 1 :=
      ⟨stepLoopCount step - 1, by have := stepLoopCount_pos step; omega⟩
    rw [hn]
    unfold runStepIters
    rw [h]
  refine ⟨?_, ?_, ?_⟩
  · intro env step rest init h
    unfold ExecuteChainS runSteps
    rw [hfirst env step _ _ (chainIter_roleNotFound env step _ h)]
  · intro env step rest init roleDef e h hb
    unfold ExecuteChainS runSteps
    rw [hfirst env step _ _ (chainIter_templateError env step _ roleDef e h hb)]
  · intro env steps init
    unfold ExecuteChainS
    rw [runSteps_error_component_irrelevant]

def c4Role : RoleS := ⟨"gemini".data, "m".data, "p".data⟩

/-- A chain whose only role invocation always reports an error. -/
def c4Env : ChainEnv :=
  ⟨[("r".data, c4Role)],
   fun _ _ _ => ([], some "model call failed".data),
   fun _ _ => .error []⟩

def c4Step : ChainRoleS := ⟨"r".data, [], [], [], false, 0, []⟩

set_option maxRecDepth 1000000 in
set_option maxHeartbeats 2000000 in
/-- C4 (counterexample) -- the claim says a role-invocation error aborts
the whole chain; here the role invocation always returns an error, yet
the chain completes successfully (one invocation, empty final context):
the error is discarded at the call site. -/
theorem c4_chain_ignores_role_error_counterexample :
    (c4Env.executeRole 0 c4Role []).2 = some "model call failed".data ∧
      ExecuteChainS c4Env [c4Step] [] = .ok ([], 1) :=
  ⟨rfl, rfl⟩

set_option maxRecDepth 1000000 in
set_option maxHeartbeats 2000000 in
/-- Witness for the amended C4 at concrete inputs: an unknown role aborts,
a bad input template aborts, and the error-discarding invariance applied
to the concrete erroring environment. -/
theorem c4_chain_abort_conditions_witness :
    ExecuteChainS c4Env [⟨"ghost".data, [], [], [], false, 0, []⟩] [] =
      .error (.roleNotFound "ghost".data) ∧
      ExecuteChainS c4Env
        [⟨"r".data, [], [("x".data,
          .str ("\x7b\x7b.a.b\x7d\x7d").data)], [], false, 0, []⟩] [] =
        .error (.inputTemplateExec "r".data) ∧
      ExecuteChainS (dropRoleErr c4Env) [c4Step] [] =
        ExecuteChainS c4Env [c4Step] [] := by
  refine ⟨?_, ?_, ?_⟩
  · exact c4_chain_abort_conditions.1 c4Env _ [] [] rfl
  · exact c4_chain_abort_conditions.2.1 c4Env _ [] [] c4Role
      (.inputTemplateExec "r".data) rfl rfl
  · exact c4_chain_abort_conditions.2.2 c4Env [c4Step] []

/-! ### Claim C6: the loop-condition termination scenario. -/

def c6Cond : List Char := ("\x7b\x7b.tool_call.name\x7d\x7d == \x27write_file\x27").data

def c6ListDirText : List Char :=
  ("```json\n\x7b\"tool_call\": \x7b\"name\": \"list_dir\", \"arguments\": \x7b\"path\": \".\"\x7d\x7d\x7d\n```").data

def c6WriteFileText : List Char :=
  ("```json\n\x7b\"tool_call\": \x7b\"name\": \"write_file\", \"arguments\": \x7b\"file_path\": \"f\", \"content\": \"bar\"\x7d\x7d\x7d\n```").data

def c6WriteJson : List Char :=
  ("\x7b\"tool_call\": \x7b\"name\": \"write_file\", \"arguments\": \x7b\"file_path\": \"f\", \"content\": \"bar\"\x7d\x7d\x7d").data

/-- The spec scenario's role: a `list_dir` call on invocations 1-2,
a `write_file` call from invocation 3 on. -/
def c6Env : ChainEnv :=
  ⟨[("dev".data, c4Role)],
   fun i _ _ => (if i < 2 then c6ListDirText else c6WriteFileText, none),
   fun _ _ => .error []⟩

def c6Step : ChainRoleS :=
  ⟨"dev".data, [], [], "result".data, true, 10, c6Cond⟩

def c6ListJson : List Char :=
  ("\x7b\"tool_call\": \x7b\"name\": \"list_dir\", \"arguments\": \x7b\"path\": \".\"\x7d\x7d\x7d").data

set_option maxRecDepth 1000000 in
set_option maxHeartbeats 4000000 in
theorem c6_iter_first :
    chainIter c6Env c6Step ⟨[], none, 0, 0⟩ =
      .ok (⟨[("result".data, .str c6ListJson)], none, 1, 1⟩, false) := rfl

set_option maxRecDepth 1000000 in
set_option maxHeartbeats 4000000 in
theorem c6_iter_second (x : GoValue) :
    chainIter c6Env c6Step ⟨[("result".data, x)], none, 1, 1⟩ =
      .ok (⟨[("result".data, .str c6ListJson)], none, 2, 2⟩, false) := rfl

set_option maxRecDepth 1000000 in
set_option maxHeartbeats 4000000 in
theorem c6_iter_late (x : GoValue) (i : Nat) (h : 2 ≤ i) :
    chainIter c6Env c6Step ⟨[("result".data, x)], none, i, i⟩ =
      .ok (⟨[("result".data, .str c6WriteJson)], none, i + 1, i + 1⟩, false) := by
  have hi : (if i < 2 then c6ListDirText else c6WriteFileText) = c6WriteFileText := by
    rw [if_neg]
    omega
  unfold chainIter c6Env
  dsimp only
  rw [hi]
  rfl

theorem c6_tail (n : Nat) (x : GoValue) (i : Nat) (h : 2 ≤ i) :
    runStepIters c6Env c6Step (n + 1) ⟨[("result".data, x)], none, i, i⟩ =
      .ok ⟨[("result".data, .str c6WriteJson)], none, i + n + 1, i + n + 1⟩ := by
  induction n generalizing x i with
  | zero =>
      unfold runStepIters
      rw [c6_iter_late x i h]
      dsimp only
      unfold runStepIters
      rfl
  | succ n ih =>
      unfold runStepIters
      rw [c6_iter_late x i h]
      dsimp only
      rw [ih (.str c6WriteJson) (i + 1) (by omega)]
      have h2 : i + 1 + n + 1 = i + (n + 1) + 1 := by omega
      rw [h2]
      rfl

set_option maxRecDepth 1000000 in
set_option maxHeartbeats 4000000 in
/-- C6 -- the claim (and the spec's testable property) says this step
stops after exactly 3 invocations with the output key holding content
from the third iteration; on the code it runs all 10 iterations and the
output key holds the raw JSON text of the tenth: extraction of the
emitted `write_file` call never validates against the camelCase-registered
default registry (the snake_case-normalized name finds no schema), so
`tool_call` never enters the context and the condition render errors
every iteration (evaluated as "condition not met").  The second conjunct
isolates the broken link: extraction of the `write_file` text itself
reports no tool-call. -/
theorem c6_loop_scenario_runs_all_iterations :
    ExecuteChainS c6Env [c6Step] [] =
      .ok ([("result".data, .str c6WriteJson)], 10) ∧
      ExtractToolCallS (some defaultRegistry) c6WriteFileText = none := by
  constructor
  · unfold ExecuteChainS runSteps
    rw [show stepLoopCount c6Step = 10 from rfl]
    unfold runStepIters
    rw [c6_iter_first]
    dsimp only
    unfold runStepIters
    rw [c6_iter_second (.str c6ListJson)]
    dsimp only
    rw [c6_tail 7 (.str c6ListJson) 2 (by omega)]
    rfl
  · rfl

/-! ## The interactive session controller (`handleToolCall`,
`pkg/roles/interactive.go`, bounded-loop version).

The loop `for i := 0; i < session.MaxIterations; i++` presents the
current tool call at the top of each iteration and then dispatches on the
user's selection.  UI, editor, re-planning and approve-and-execute are
external collaborators, modelled as oracle fields; extraction of a fresh
tool call from new role output is the embedded extractor.  The model
returns the list of presented tool calls, in order (the transcript
bookkeeping does not affect control flow and is not modelled).  Note that
the `Edit tool_call JSON` arm ends in `continue`, which advances `i`:
editing consumes one of the `MaxIterations` iterations. -/

inductive UiChoice where
  | approve
  | edit
  | reject
  | replan
deriving Repr, DecidableEq

structure SessionEnv where
  yes : Bool
  promptSelect : Nat → Option UiChoice
  editOracle : ToolCallV → ToolCallV
  replanInstr : Nat → Option (List Char)
  executeRoleO : Nat → Option (List Char)
  approveExec : Nat → ToolCallV → Option GoValue × Bool

def sessionLoop (env : SessionEnv) (reg : ToolRegistryS) :
    Nat → Nat → ToolCallV → List ToolCallV
  | 0, _, _ => []
  | rem + 1, i, tc =>
      match if env.yes then some UiChoice.approve else env.promptSelect i with
      | none => [tc]
      | some .approve =>
          let r := env.approveExec i tc
          if !r.2 then [tc]
          else
            match env.executeRoleO i with
            | none => [tc]
            | some out =>
                match ExtractToolCallS (some reg) out with
                | none => [tc]
                | some (tc2, _) => tc :: sessionLoop env reg rem (i + 1) tc2
      | some .edit => tc :: sessionLoop env reg rem (i + 1) (env.editOracle tc)
      | some .reject => [tc]
      | some .replan =>
          match env.replanInstr i with
          | none => [tc]
          | some _ =>
              match env.executeRoleO i with
              | none => [tc]
              | some out =>
                  match ExtractToolCallS (some reg) out with
                  | none => [tc]
                  | some (tc2, _) => tc :: sessionLoop env reg rem (i + 1) tc2

/-- `handleToolCall`: the bounded presentation loop, as the list of
presented calls. -/
def handleToolCallS (env : SessionEnv) (reg : ToolRegistryS)
    (maxIterations : Nat) (tc0 : ToolCallV) : List ToolCallV :=
  sessionLoop env reg maxIterations 0 tc0

theorem sessionLoop_length_le (env : SessionEnv) (reg : ToolRegistryS)
    (rem i : Nat) (tc : ToolCallV) :
    (sessionLoop env reg rem i tc).length ≤ rem := by
  induction rem generalizing i tc with
  | zero => simp [sessionLoop]
  | succ rem ih =>
      unfold sessionLoop
      cases hch : if env.yes then some UiChoice.approve else env.promptSelect i with
      | none => simp
      | some c =>
          cases c with
          | approve =>
              dsimp only
              by_cases hr : (env.approveExec i tc).2 = true
              · simp only [hr, Bool.not_true, Bool.false_eq_true, if_false]
                cases env.executeRoleO i with
                | none => simp
                | some out =>
                    dsimp only
                    cases ExtractToolCallS (some reg) out with
                    | none => simp
                    | some p =>
                        obtain ⟨tc2, nm⟩ := p
                        simp only [List.length_cons]
                        exact Nat.succ_le_succ (ih (i + 1) tc2)
              · have hr2 : (env.approveExec i tc).2 = false := by
                  simpa using hr
                simp [hr2]
          | edit =>
              simp only [List.length_cons]
              exact Nat.succ_le_succ (ih (i + 1) (env.editOracle tc))
          | reject => simp
          | replan =>
              dsimp only
              cases env.replanInstr i with
              | none => simp
              | some instr =>
                  dsimp only
                  cases env.executeRoleO i with
                  | none => simp
                  | some out =>
                      dsimp only
                      cases ExtractToolCallS (some reg) out with
                      | none => simp
                      | some p =>
                          obtain ⟨tc2, nm⟩ := p
                          simp only [List.length_cons]
                          exact Nat.succ_le_succ (ih (i + 1) tc2)

theorem sessionLoop_head (env : SessionEnv) (reg : ToolRegistryS)
    (rem i : Nat) (tc : ToolCallV) (h : 1 ≤ rem) :
    (sessionLoop env reg rem i tc).head? = some tc := by
  obtain ⟨n, rfl⟩ : ∃ n, rem = n + 1 := ⟨rem - 1, by omega⟩
  unfold sessionLoop
  cases hch : if env.yes then some UiChoice.approve else env.promptSelect i with
  | none => rfl
  | some c =>
      cases c with
      | approve =>
          dsimp only
          by_cases hr : (env.approveExec i tc).2 = true
          · simp only [hr, Bool.not_true, Bool.false_eq_true, if_false]
            cases env.executeRoleO i with
            | none => rfl
            | some out =>
                dsimp only
                cases ExtractToolCallS (some reg) out with
                | none => rfl
                | some p => rfl
          · have hr2 : (env.approveExec i tc).2 = false := by
              simpa using hr
            simp [hr2]
      | edit => rfl
      | reject => rfl
      | replan =>
          dsimp only
          cases env.replanInstr i with
          | none => rfl
          | some instr =>
              dsimp only
              cases env.executeRoleO i with
              | none => rfl
              | some out =>
                  dsimp only
                  cases ExtractToolCallS (some reg) out with
                  | none => rfl
                  | some p => rfl

/-- C8 (amended) -- the controller presents at most `MaxIterations` tool
calls in total, and choosing `Edit tool_call JSON` **consumes one of
those iterations**: the edit arm's `continue` advances the loop counter,
so after an edit the edited call is re-presented only while iterations
remain (in particular, head-of-next-segment is the edited call). -/
theorem c8_session_iteration_budget :
    (∀ (env : SessionEnv) (reg : ToolRegistryS) (maxIterations : Nat)
        (tc0 : ToolCallV),
        (handleToolCallS env reg maxIterations tc0).length ≤ maxIterations) ∧
    (∀ (env : SessionEnv) (reg : ToolRegistryS) (rem i : Nat) (tc : ToolCallV),
        env.yes = false →
        env.promptSelect i = some .edit →
        sessionLoop env reg (rem + 1) i tc =
          tc :: sessionLoop env reg rem (i + 1) (env.editOracle tc)) ∧
    (∀ (env : SessionEnv) (reg : ToolRegistryS) (rem i : Nat) (tc : ToolCallV),
        1 ≤ rem → (sessionLoop env reg rem i tc).head? = some tc) := by
  refine ⟨?_, ?_, ?_⟩
  · intro env reg maxIterations tc0
    exact sessionLoop_length_le env reg maxIterations 0 tc0
  · intro env reg rem i tc hy hsel
    conv_lhs => unfold sessionLoop
    rw [hy]
    simp only [Bool.false_eq_true, if_false, hsel]
  · exact sessionLoop_head

def c8Tc0 : ToolCallV := ⟨"write_file".data, some [("file_path".data, .str "a".data)]⟩

def c8TcEdited : ToolCallV :=
  ⟨"write_file".data, some [("file_path".data, .str "b".data)]⟩

/-- A session whose user always chooses `Edit tool_call JSON`. -/
def c8Env : SessionEnv :=
  ⟨false, fun _ => some .edit, fun _ => c8TcEdited, fun _ => none,
   fun _ => none, fun _ _ => (none, false)⟩

/-- C8 (counterexample) -- the claim says an edit re-presents the edited
call without consuming one of the `MaxIterations` iterations; with
`MaxIterations = 1` and a user who edits, the code presents exactly one
call — the original — and never re-presents the edited one: the edit
consumed the only iteration. -/
theorem c8_edit_consumes_iteration_counterexample :
    c8Env.promptSelect 0 = some .edit ∧
      handleToolCallS c8Env writeFileSnakeRegistry 1 c8Tc0 = [c8Tc0] :=
  ⟨rfl, rfl⟩

/-- Witness for the amended C8: with two iterations, the edit consumes
the first and the edited call is re-presented as the second (and last). -/
theorem c8_session_iteration_budget_witness :
    sessionLoop c8Env writeFileSnakeRegistry 2 0 c8Tc0 =
      c8Tc0 :: sessionLoop c8Env writeFileSnakeRegistry 1 1 c8TcEdited ∧
      (sessionLoop c8Env writeFileSnakeRegistry 1 1 c8TcEdited).head? =
        some c8TcEdited ∧
      (handleToolCallS c8Env writeFileSnakeRegistry 2 c8Tc0).length ≤ 2 :=
  ⟨c8_session_iteration_budget.2.1 c8Env writeFileSnakeRegistry 1 0 c8Tc0 rfl rfl,
   c8_session_iteration_budget.2.2 c8Env writeFileSnakeRegistry 1 1 c8TcEdited
     (by omega),
   c8_session_iteration_budget.1 c8Env writeFileSnakeRegistry 2 c8Tc0⟩

end AiTeam
